import Mathlib

/-!
Verification of the BlackRoad animation controller: a shallow embedding of
the skeleton/bone data model, the forward- and inverse-kinematics solvers,
the clip sampling model and the animator playback state machine, together
with theorems settling the specified behavioural claims.

Bone ids are modelled as `Int`, angles/lengths/times as `ℝ` (exact reals in
place of floats), and the keyframe/clip sampling layer is polymorphic over a
linear ordered field so that concrete witnesses can be evaluated over `ℚ`.
Python dictionaries keyed by bone id are modelled as association lists with
first-match lookup, which agrees with the dictionary behaviour because ids
are unique keys.
-/

/-- Interpolation easing kinds (`InterpolationType` in the source). -/
inductive InterpolationType
  | LINEAR
  | STEP
  | CUBIC
deriving DecidableEq

/-- Loop modes for clips (`LoopMode` in the source). -/
inductive LoopMode
  | ONCE
  | LOOP
  | PING_PONG
deriving DecidableEq

/-- Playback states of the animator (`PlaybackState` in the source). -/
inductive PlaybackState
  | STOPPED
  | PLAYING
  | PAUSED
  | BLENDING
deriving DecidableEq

/-- A single keyframe of bone angles at a given time (`Keyframe`).
`bone_angles` models the Python dict `bone_id -> angle` as an association
list. -/
structure Keyframe (α : Type) where
  time : α
  bone_angles : List (Int × α)
  easing : InterpolationType
deriving DecidableEq

instance {α : Type} [Zero α] : Inhabited (Keyframe α) :=
  ⟨{ time := 0, bone_angles := [], easing := InterpolationType.LINEAR }⟩

/-- Animation clip containing keyframes (`Clip`). -/
structure Clip (α : Type) where
  name : String
  keyframes : List (Keyframe α)
  loop : Bool
  fps : α
  loop_mode : LoopMode
deriving DecidableEq

/-- Clip duration: time of the last keyframe, `0` for an empty clip
(`Clip.duration`). -/
def Clip.duration {α : Type} [Zero α] (c : Clip α) : α :=
  match c.keyframes.getLast? with
  | none => 0
  | some k => k.time

/-- Python float modulo `x % y` for `y > 0`: `x - y * ⌊x / y⌋`. -/
def fmod {α : Type} [LinearOrderedField α] [FloorRing α] (x y : α) : α :=
  x - y * (⌊x / y⌋ : ℤ)

/-- Loop-mode normalization of the sampling time, the first phase of
`Clip.sample`: `LOOP` wraps modulo the duration, `PING_PONG` reflects inside
`[0, duration]`, `ONCE` clamps from above; skipped entirely when the
duration is not positive. -/
def Clip.normTime {α : Type} [LinearOrderedField α] [FloorRing α]
    (c : Clip α) (t : α) : α :=
  let duration := c.duration
  if duration > 0 then
    match c.loop_mode with
    | LoopMode.LOOP => fmod t duration
    | LoopMode.PING_PONG =>
      let cycle := fmod t (duration * 2)
      if cycle ≤ duration then cycle else duration * 2 - cycle
    | LoopMode.ONCE => min t duration
  else t

/-- Interpolation between two bracketing keyframes, the body of the scan
loop in `Clip.sample`: the linear factor is eased by the first keyframe's
easing, and the per-bone angles are mixed over the union of the two
keyframes' bone ids, treating a missing id as `0`. -/
def interpKeyframes {α : Type} [LinearOrderedField α]
    (k0 k1 : Keyframe α) (t : α) : List (Int × α) :=
  let span := k1.time - k0.time
  let alpha0 : α := if span > 0 then (t - k0.time) / span else 0
  let alpha : α :=
    match k0.easing with
    | InterpolationType.CUBIC => alpha0 * alpha0 * (3 - 2 * alpha0)
    | InterpolationType.STEP => 0
    | InterpolationType.LINEAR => alpha0
  let all_ids := (k0.bone_angles.map Prod.fst ++ k1.bone_angles.map Prod.fst).dedup
  all_ids.map (fun bid =>
    let a0 := (k0.bone_angles.lookup bid).getD 0
    let a1 := (k1.bone_angles.lookup bid).getD 0
    (bid, a0 + (a1 - a0) * alpha))

/-- Scan for the bracketing keyframe pair `(k0, k1)` with
`k0.time ≤ t ≤ k1.time`, the `for i in range(len(kfs) - 1)` loop of
`Clip.sample`; `none` when no pair brackets `t`. -/
def scanKeyframes {α : Type} [LinearOrderedField α] :
    List (Keyframe α) → α → Option (List (Int × α))
  | k0 :: k1 :: rest, t =>
    if k0.time ≤ t ∧ t ≤ k1.time then some (interpKeyframes k0 k1 t)
    else scanKeyframes (k1 :: rest) t
  | _, _ => none

/-- The post-normalization part of `Clip.sample`: boundary clamping to the
first/last keyframe, then the bracketing-pair scan, falling back to the last
keyframe. -/
def Clip.sampleAt {α : Type} [LinearOrderedField α]
    (c : Clip α) (t : α) : List (Int × α) :=
  match c.keyframes with
  | [] => []
  | k0 :: rest =>
    if t ≤ k0.time then k0.bone_angles
    else
      let klast := (k0 :: rest).getLastD k0
      if t ≥ klast.time then klast.bone_angles
      else
        match scanKeyframes (k0 :: rest) t with
        | some res => res
        | none => klast.bone_angles

/-- Interpolate bone angles at time `t` (`Clip.sample`): empty clip yields
the empty pose, otherwise the time is loop-normalized and the keyframe list
is sampled. -/
def Clip.sample {α : Type} [LinearOrderedField α] [FloorRing α]
    (c : Clip α) (t : α) : List (Int × α) :=
  if c.keyframes.isEmpty then []
  else c.sampleAt (c.normTime t)

/-- Euclidean distance between two points (`math.dist`). -/
noncomputable def pdist (p q : ℝ × ℝ) : ℝ :=
  Real.sqrt ((q.1 - p.1) ^ 2 + (q.2 - p.2) ^ 2)

/-- Two-argument arctangent (`math.atan2 y x`), modelled as the complex
argument of `x + y·i`. -/
noncomputable def atan2 (y x : ℝ) : ℝ := Complex.arg ⟨x, y⟩

/-- The common update step of the three FABRIK position loops: move the
point `b` to lie at distance `len` from the point `a` along the segment
toward `b`, written exactly as in the source as
`((1 - lam) * a + lam * b)` with `lam = len / r` and the zero-distance
guard `r if r > 0 else 1e-9` (`pdist` is symmetric in its arguments). -/
noncomputable def place (a b : ℝ × ℝ) (len : ℝ) : ℝ × ℝ :=
  let r := pdist a b
  let lam := len / (if r > 0 then r else 1e-9)
  ((1 - lam) * a.1 + lam * b.1, (1 - lam) * a.2 + lam * b.2)

/-- A single bone in a skeleton (`Bone`). -/
structure Bone where
  id : Int
  name : String
  parent_id : Option Int
  length : ℝ
  rest_angle : ℝ
  current_angle : ℝ
  world_x : ℝ
  world_y : ℝ
  world_angle : ℝ
  weight : ℝ

instance : Inhabited Bone :=
  ⟨{ id := 0, name := "", parent_id := none, length := 1, rest_angle := 0,
     current_angle := 0, world_x := 0, world_y := 0, world_angle := 0,
     weight := 1 }⟩

/-- X coordinate of the bone's tip (`Bone.tip_x`). -/
noncomputable def Bone.tip_x (b : Bone) : ℝ :=
  b.world_x + b.length * Real.cos b.world_angle

/-- Y coordinate of the bone's tip (`Bone.tip_y`). -/
noncomputable def Bone.tip_y (b : Bone) : ℝ :=
  b.world_y + b.length * Real.sin b.world_angle

/-- The fields of a bone never mutated by the kinematics code (identity,
hierarchy and local-pose data). -/
def Bone.static (b : Bone) : Int × Option Int × String × ℝ × ℝ × ℝ × ℝ :=
  (b.id, b.parent_id, b.name, b.length, b.rest_angle, b.current_angle, b.weight)

/-- In-place mutation of the (first) bone with the given id, the shallow
counterpart of mutating the object returned by `Skeleton.get_bone`. -/
def updateBone : List Bone → Int → (Bone → Bone) → List Bone
  | [], _, _ => []
  | b :: bs, bid, f => if b.id == bid then f b :: bs else b :: updateBone bs bid f

/-- Hierarchical bone structure (`Skeleton`): the id-keyed bone dictionary
in insertion order, plus the world anchor of the root bones. -/
structure Skeleton where
  bones : List Bone
  root_x : ℝ
  root_y : ℝ

/-- Look up a bone by id (`Skeleton.get_bone`). -/
def Skeleton.get_bone (sk : Skeleton) (bone_id : Int) : Option Bone :=
  sk.bones.find? (fun b => b.id == bone_id)

/-- All bones whose parent is the given id (`Skeleton.get_children`). -/
def Skeleton.get_children (sk : Skeleton) (parent_id : Int) : List Bone :=
  sk.bones.filter (fun b => b.parent_id == some parent_id)

/-- All bones with no parent (`Skeleton.root_bones`). -/
def Skeleton.root_bones (sk : Skeleton) : List Bone :=
  sk.bones.filter (fun b => b.parent_id.isNone)

/-- The parent-link walk of `Skeleton.get_chain`, producing the chain
end-effector-first; the visited set guards against cycles.  Fuel bounds the
loop: each productive step adds a previously unvisited id that carries a
bone, so `bones.length + 1` steps always suffice and the fuel-exhaustion
branch is never taken by `get_chain`. -/
def chainWalk (sk : Skeleton) : Nat → Option Int → List Int → List Bone
  | 0, _, _ => []
  | _ + 1, none, _ => []
  | fuel + 1, some bid, visited =>
    if visited.contains bid then []
    else
      match sk.get_bone bid with
      | none => []
      | some bone => bone :: chainWalk sk fuel bone.parent_id (bid :: visited)

/-- Chain from the root to `end_bone_id`, root-first (`Skeleton.get_chain`). -/
def Skeleton.get_chain (sk : Skeleton) (end_bone_id : Int) : List Bone :=
  (chainWalk sk (sk.bones.length + 1) (some end_bone_id) []).reverse

/-- The world-transform assignment performed by `_process` on the visited
bone: world position from the parent call's values, world angle already
combined with the bone's rest and current angles. -/
noncomputable def fkUpdate (px py wang : ℝ) : Bone → Bone := fun b =>
  { b with world_x := px, world_y := py, world_angle := wang }

/-- The ids of the bones whose `parent_id` is the given id, in store order
(the ids of `Skeleton.get_children` of the current bone store). -/
def childIdsOf (bs : List Bone) (bone_id : Int) : List Int :=
  (bs.filter (fun b => b.parent_id == some bone_id)).map Bone.id

/-- The recursive `_process` of `calculate_forward_kinematics`: set the
bone's world transform from the parent values, then recurse into its
children reading the (just-updated) bone's tip afresh for each child.  Fuel
bounds the recursion depth; Python's recursion visits each bone on a
root-originating path at most once, so `bones.length + 1` fuel is never
exhausted.  The `none` fallbacks mirror the `if not bone: return` guard. -/
noncomputable def fkProcess : Nat → List Bone → Int → ℝ → ℝ → ℝ → List Bone
  | 0, bs, _, _, _, _ => bs
  | fuel + 1, bs, bone_id, px, py, pang =>
    match bs.find? (fun b => b.id == bone_id) with
    | none => bs
    | some bone =>
      (childIdsOf
        (updateBone bs bone_id
          (fkUpdate px py (pang + bone.rest_angle + bone.current_angle)))
        bone_id).foldl
        (fun acc cid =>
          match acc.find? (fun b => b.id == bone_id) with
          | none => acc
          | some bcur => fkProcess fuel acc cid bcur.tip_x bcur.tip_y bcur.world_angle)
        (updateBone bs bone_id
          (fkUpdate px py (pang + bone.rest_angle + bone.current_angle)))

/-- Update world positions of all bones via FK traversal
(`calculate_forward_kinematics`). -/
noncomputable def calculate_forward_kinematics (sk : Skeleton) : Skeleton :=
  { sk with
    bones := (sk.root_bones.map Bone.id).foldl
      (fun bs rid => fkProcess (sk.bones.length + 1) bs rid sk.root_x sk.root_y 0)
      sk.bones }

/-- The out-of-reach stretch pass of `calculate_inverse_kinematics`:
starting from the previous joint, each next joint is placed along the ray
toward the target at that bone's length. -/
noncomputable def stretchPass (target : ℝ × ℝ) : ℝ × ℝ → List ℝ → List (ℝ × ℝ)
  | _, [] => []
  | p, len :: lens =>
    let q := place p target len
    q :: stretchPass target q lens

/-- The forward-reaching FABRIK pass over the non-tip points (the tip is
pinned to `target`): walking from the far end toward the root, each point
is re-placed at its bone's length from its already-updated successor. -/
noncomputable def reachIn (target : ℝ × ℝ) : List ℝ → List (ℝ × ℝ) → List (ℝ × ℝ)
  | len :: lens, p :: ps =>
    let rest := reachIn target lens ps
    place (rest.headD target) p len :: rest
  | _, _ => []

/-- The backward-reaching FABRIK pass: the first point is pinned back to the
root, and walking outward each next point is re-placed at its bone's length
from its already-updated predecessor. -/
noncomputable def reachOut : ℝ × ℝ → List ℝ → List (ℝ × ℝ) → List (ℝ × ℝ)
  | _, [], _ => []
  | _, _ :: _, [] => []
  | p, len :: lens, q :: qs =>
    let q' := place p q len
    q' :: reachOut q' lens qs

/-- One FABRIK iteration: forward-reaching pass (tip pinned to the target),
then backward-reaching pass (first point pinned to the root). -/
noncomputable def fabrikStep (root target : ℝ × ℝ) (lens : List ℝ)
    (ps : List (ℝ × ℝ)) : List (ℝ × ℝ) :=
  let fwd := reachIn target lens ps.dropLast ++ [target]
  root :: reachOut root lens fwd.tail

/-- The bounded FABRIK iteration loop with the early tolerance break tested
after each iteration. -/
noncomputable def fabrikLoop : Nat → (ℝ × ℝ) → (ℝ × ℝ) → List ℝ → ℝ →
    List (ℝ × ℝ) → List (ℝ × ℝ)
  | 0, _, _, _, _, ps => ps
  | n + 1, root, target, lens, tol, ps =>
    let ps' := fabrikStep root target lens ps
    if pdist (ps'.getLastD target) target < tol then ps'
    else fabrikLoop n root target lens tol ps'

/-- The initial joint-position list of the IK solve: the world position of
each chain bone followed by the tip of the last bone. -/
noncomputable def ikChainPositions (chain : List Bone) : List (ℝ × ℝ) :=
  match chain.getLast? with
  | none => []
  | some last => chain.map (fun b => (b.world_x, b.world_y)) ++ [(last.tip_x, last.tip_y)]

/-- The position-solving phase of `calculate_inverse_kinematics`: the
single stretch pass when the target is out of reach, the FABRIK loop
otherwise. -/
noncomputable def ikSolvePositions (positions : List (ℝ × ℝ)) (lens : List ℝ)
    (target : ℝ × ℝ) (iterations : Nat) (tolerance : ℝ) : List (ℝ × ℝ) :=
  let root_pos := positions.headD (0, 0)
  let total_length := lens.sum
  let dist_to_target := pdist root_pos target
  if dist_to_target > total_length then
    root_pos :: stretchPass target root_pos lens
  else
    fabrikLoop iterations root_pos target lens tolerance positions

/-- The solved joint positions of `calculate_inverse_kinematics` for the
chain resolved from the given end effector. -/
noncomputable def ikPositions (sk : Skeleton) (end_effector_id : Int)
    (target_x target_y : ℝ) (iterations : Nat) (tolerance : ℝ) : List (ℝ × ℝ) :=
  let chain := sk.get_chain end_effector_id
  ikSolvePositions (ikChainPositions chain) (chain.map Bone.length)
    (target_x, target_y) iterations tolerance

/-- The per-bone mutation of the IK write-back loop: the bone takes the
solved segment's start position and `atan2` world angle `wa`, and a local
angle `wa - parent_world_angle - rest_angle`, the parent's world angle
being read from the current (possibly already-updated) bone store. -/
noncomputable def ikWriteBack (bs : List Bone) (bone : Bone) (p q : ℝ × ℝ) :
    Bone → Bone := fun b =>
  { b with
    current_angle := atan2 (q.2 - p.2) (q.1 - p.1) -
      (match bone.parent_id with
       | none => 0
       | some pid =>
         match bs.find? (fun x => x.id == pid) with
         | none => 0
         | some par => par.world_angle) - b.rest_angle,
    world_x := p.1, world_y := p.2,
    world_angle := atan2 (q.2 - p.2) (q.1 - p.1) }

/-- The final write-back loop of `calculate_inverse_kinematics`: each chain
bone receives the solved segment's start position and `atan2` angle, and a
local angle relative to its parent's (possibly just-updated) world angle. -/
noncomputable def ikApply : List Bone → List Bone → List (ℝ × ℝ) → List Bone
  | bs, [], _ => bs
  | bs, bone :: rest, p :: q :: ps =>
    ikApply (updateBone bs bone.id (ikWriteBack bs bone p q)) rest (q :: ps)
  | bs, _ :: _, _ => bs

/-- FABRIK inverse kinematics (`calculate_inverse_kinematics`): returns the
updated skeleton and whether the final tip landed within tolerance of the
target; a chain of fewer than two bones is rejected up front. -/
noncomputable def calculate_inverse_kinematics (sk : Skeleton)
    (end_effector_id : Int) (target_x target_y : ℝ)
    (iterations : Nat) (tolerance : ℝ) : Skeleton × Bool :=
  let chain := sk.get_chain end_effector_id
  if chain.length < 2 then (sk, false)
  else
    let positions := ikPositions sk end_effector_id target_x target_y iterations tolerance
    let bones' := ikApply sk.bones chain positions
    ({ sk with bones := bones' },
      if pdist (positions.getLastD (target_x, target_y)) (target_x, target_y) < tolerance
      then true else false)

/-- Python string truthiness of an optional clip name (`if self.current_clip:`
is false for both `None` and the empty string). -/
def truthy : Option String → Bool
  | none => false
  | some s => !(s == "")

/-- Controls playback and blending of animation clips on a skeleton
(`Animator`); the clip dictionary is an association list keyed by name. -/
structure Animator where
  skeleton : Skeleton
  clips : List (String × Clip ℝ)
  state : PlaybackState
  current_clip : Option String
  blend_clip : Option String
  blend_alpha : ℝ
  _time : ℝ
  _speed : ℝ
  _blend_duration : ℝ
  _blend_time : ℝ

/-- Construct an animator in its initial state (`Animator.__init__`). -/
def Animator.init (skeleton : Skeleton) (clips : List (String × Clip ℝ)) : Animator :=
  { skeleton := skeleton, clips := clips, state := PlaybackState.STOPPED,
    current_clip := none, blend_clip := none, blend_alpha := 0,
    _time := 0, _speed := 1, _blend_duration := 0, _blend_time := 0 }

/-- Insert or overwrite a clip by name in the clip dictionary, preserving
the position of an existing key as a Python dict does. -/
def updateClips : List (String × Clip ℝ) → String → Clip ℝ → List (String × Clip ℝ)
  | [], k, v => [(k, v)]
  | (k', v') :: rest, k, v =>
    if k' == k then (k, v) :: rest else (k', v') :: updateClips rest k v

/-- Register a clip under its name (`Animator.add_clip`). -/
def Animator.add_clip (a : Animator) (c : Clip ℝ) : Animator :=
  { a with clips := updateClips a.clips c.name c }

/-- Start playing a clip (`Animator.play`); the first component is the
raised error, `none` on success, and the second the resulting state (the
error is raised before any mutation). -/
def Animator.play (a : Animator) (clip_name : String) (reset_time : Bool)
    (speed : ℝ) : Option String × Animator :=
  if (a.clips.lookup clip_name).isNone then
    (some ("Clip " ++ clip_name ++ " not found"), a)
  else
    (none,
      { a with current_clip := some clip_name, state := PlaybackState.PLAYING,
               _speed := speed, blend_clip := none, blend_alpha := 0,
               _time := if reset_time then 0 else a._time })

/-- Stop playback (`Animator.stop`). -/
def Animator.stop (a : Animator) : Animator :=
  { a with state := PlaybackState.STOPPED, _time := 0, current_clip := none }

/-- Pause playback, effective only while playing (`Animator.pause`). -/
def Animator.pause (a : Animator) : Animator :=
  if a.state = PlaybackState.PLAYING then { a with state := PlaybackState.PAUSED } else a

/-- Resume playback, effective only while paused (`Animator.resume`). -/
def Animator.resume (a : Animator) : Animator :=
  if a.state = PlaybackState.PAUSED then { a with state := PlaybackState.PLAYING } else a

/-- Instantly blend between two clips with a caller-supplied alpha
(`Animator.blend`); the error, raised before any mutation, is the first
component. -/
def Animator.blend (a : Animator) (clip1 clip2 : String) (alpha : ℝ) :
    Option String × Animator :=
  if (a.clips.lookup clip1).isNone ∨ (a.clips.lookup clip2).isNone then
    (some "One or more clips not found", a)
  else
    (none,
      { a with current_clip := some clip1, blend_clip := some clip2,
               blend_alpha := max 0 (min 1 alpha), state := PlaybackState.BLENDING })

/-- Begin a timed crossfade to a new clip (`Animator.transition_to`);
falls back to `play` when no clip is current (by Python truthiness). -/
def Animator.transition_to (a : Animator) (clip_name : String) (duration : ℝ) :
    Option String × Animator :=
  if (a.clips.lookup clip_name).isNone then
    (some ("Clip " ++ clip_name ++ " not found"), a)
  else if truthy a.current_clip then
    (none,
      { a with blend_clip := some clip_name, _blend_duration := duration,
               _blend_time := 0, state := PlaybackState.BLENDING })
  else
    a.play clip_name true 1

/-- Mix two sampled poses over the union of their bone ids with the given
alpha, treating a bone missing from one pose as `0` (the blend section of
`Animator.update`). -/
def blendPoses (pose bpose : List (Int × ℝ)) (alpha : ℝ) : List (Int × ℝ) :=
  ((pose.map Prod.fst ++ bpose.map Prod.fst).dedup).map (fun bid =>
    let av := (pose.lookup bid).getD 0
    let bv := (bpose.lookup bid).getD 0
    (bid, av + (bv - av) * alpha))

/-- Write a sampled pose's angles onto the matching skeleton bones (the
apply section of `Animator.update`); ids with no bone are skipped. -/
def applyPose (sk : Skeleton) (pose : List (Int × ℝ)) : Skeleton :=
  { sk with
    bones := pose.foldl
      (fun bs pr => updateBone bs pr.1 (fun b => { b with current_angle := pr.2 }))
      sk.bones }

/-- The timed-blend section of `Animator.update`: while blending with a
positive duration, advance the blend timer by the raw `dt`, set
`blend_alpha = min 1 (blend_time / blend_duration)`, and on reaching alpha
`1` complete the transition (current clip becomes the blend target, the
blend target and alpha are cleared, state returns to playing). -/
noncomputable def updateBlendTimer (a : Animator) (dt : ℝ) : Animator :=
  if a.state = PlaybackState.BLENDING ∧ a._blend_duration > 0 then
    if min 1 ((a._blend_time + dt) / a._blend_duration) ≥ 1 then
      { a with _blend_time := a._blend_time + dt,
               current_clip := a.blend_clip, blend_clip := none,
               blend_alpha := 0, state := PlaybackState.PLAYING }
    else
      { a with _blend_time := a._blend_time + dt,
               blend_alpha := min 1 ((a._blend_time + dt) / a._blend_duration) }
  else a

/-- The pose section of `Animator.update`: when a (truthily named, present)
current clip exists, sample it at the clock time, mix in the blend clip's
pose when one is set, write the angles onto the skeleton and run forward
kinematics.  Only the skeleton field changes. -/
noncomputable def updatePose (a : Animator) : Animator :=
  match a.current_clip with
  | none => a
  | some cname =>
    if cname == "" then a
    else
      match a.clips.lookup cname with
      | none => a
      | some clip =>
        let pose := clip.sample a._time
        let pose2 :=
          match a.blend_clip with
          | none => pose
          | some bname =>
            if bname == "" then pose
            else
              match a.clips.lookup bname with
              | none => pose
              | some bclip => blendPoses pose (bclip.sample a._time) a.blend_alpha
        { a with skeleton := calculate_forward_kinematics (applyPose a.skeleton pose2) }

/-- Advance animation time and apply the sampled (possibly blended) pose to
the skeleton (`Animator.update`): a no-op when stopped or paused, otherwise
the clock advances by `dt · speed`, the timed-blend section runs, and the
pose section writes the result to the skeleton. -/
noncomputable def Animator.update (a : Animator) (dt : ℝ) : Animator :=
  if a.state = PlaybackState.STOPPED ∨ a.state = PlaybackState.PAUSED then a
  else updatePose (updateBlendTimer { a with _time := a._time + dt * a._speed } dt)

/-- Repeated `Animator.update` calls with the given `dt` values. -/
noncomputable def applyUpdates (a : Animator) (dts : List ℝ) : Animator :=
  dts.foldl Animator.update a

/-- One animator operation, for stating invariants over arbitrary operation
sequences. -/
inductive AnimOp
  | play (clip_name : String) (reset_time : Bool) (speed : ℝ)
  | stop
  | pause
  | resume
  | blend (clip1 clip2 : String) (alpha : ℝ)
  | transition (clip_name : String) (duration : ℝ)
  | addClip (c : Clip ℝ)
  | update (dt : ℝ)

/-- Apply one operation to an animator; for the fallible operations the
post-raise state is taken (a rejected call leaves the state unchanged). -/
noncomputable def applyOp (a : Animator) : AnimOp → Animator
  | AnimOp.play n r s => (a.play n r s).2
  | AnimOp.stop => a.stop
  | AnimOp.pause => a.pause
  | AnimOp.resume => a.resume
  | AnimOp.blend c1 c2 al => (a.blend c1 c2 al).2
  | AnimOp.transition n d => (a.transition_to n d).2
  | AnimOp.addClip c => a.add_clip c
  | AnimOp.update dt => a.update dt

/-- Apply a sequence of operations left to right. -/
noncomputable def applyOps (a : Animator) (ops : List AnimOp) : Animator :=
  ops.foldl applyOp a

/-- A keyframe-less looping clip, used as a minimal concrete clip in
counterexamples and witnesses. -/
def emptyLoopClip (nm : String) : Clip ℝ :=
  { name := nm, keyframes := [], loop := true, fps := 24,
    loop_mode := LoopMode.LOOP }

/-- Consecutive points of the position list are at exactly the
corresponding bone's length from each other, or coincide (the collapsed
case produced by the `1e-9` guard when two points are identical). -/
def SegLenOk : List ℝ → List (ℝ × ℝ) → Prop
  | [], _ => True
  | len :: lens, p :: q :: ps => (pdist p q = len ∨ pdist p q = 0) ∧ SegLenOk lens (q :: ps)
  | _ :: _, _ => False

/-- The point on the ray from `root` through `t` at distance `s` from
`root` (parameterised by arc length over the chord `root → t`). -/
noncomputable def ptAlong (root t : ℝ × ℝ) (s : ℝ) : ℝ × ℝ :=
  (root.1 + (s / pdist root t) * (t.1 - root.1),
   root.2 + (s / pdist root t) * (t.2 - root.2))

/-- The closed form of the out-of-reach stretch pass: successive points on
the ray from `root` through `t` at the accumulated bone lengths. -/
noncomputable def rayPoints (root t : ℝ × ℝ) : ℝ → List ℝ → List (ℝ × ℝ)
  | _, [] => []
  | s, len :: lens => ptAlong root t (s + len) :: rayPoints root t (s + len) lens

/-- A concrete two-bone chain (unit lengths) with its root at the origin,
bone 1 anchored at `(1, 0)`, used with an out-of-reach target. -/
def ikStretchSkeleton : Skeleton :=
  ⟨[Bone.mk 0 "base" none 1 0 0 0 0 0 1,
    Bone.mk 1 "end" (some 0) 1 0 0 1 0 0 1], 0, 0⟩

/-- A concrete two-bone chain (unit lengths) with every world position at
the origin, exercising the degenerate coincident-point case of FABRIK. -/
def ikZeroSkeleton : Skeleton :=
  ⟨[Bone.mk 0 "base" none 1 0 0 0 0 0 1,
    Bone.mk 1 "end" (some 0) 1 0 0 0 0 0 1], 0, 0⟩

/-- One parent-to-child descent step among bone ids: some bone of the
store has id `c` and parent id `p`. -/
def DescStep (S : List Bone) (p c : Int) : Prop :=
  ∃ b ∈ S, b.id = c ∧ b.parent_id = some p

/-- Every descent chain of child steps starting at `bid` is shorter than
the given fuel. -/
def Shallow (S : List Bone) : Nat → Int → Prop
  | 0, _ => False
  | n + 1, bid => ∀ c ∈ S, c.parent_id = some bid → Shallow S n c.id

/-- The bones visited by the FK traversal: root bones and, recursively,
bones whose parent is reachable. -/
inductive ReachableBone (sk : Skeleton) : Bone → Prop
  | root (b : Bone) : b ∈ sk.bones → b.parent_id = none → ReachableBone sk b
  | child (p b : Bone) : ReachableBone sk p → b ∈ sk.bones →
      b.parent_id = some p.id → ReachableBone sk b

-- ===================================================================
-- THEOREMS
-- ===================================================================

/-- Helper: `fmod` is invariant under adding the (nonzero) modulus. -/
theorem fmod_add_self {α : Type} [LinearOrderedField α] [FloorRing α]
    (x y : α) (hy : y ≠ 0) : fmod (x + y) y = fmod x y := by
  unfold fmod
  have h : (x + y) / y = x / y + 1 := by field_simp
  rw [h, Int.floor_add_one]
  push_cast
  ring

/-- Helper: a clip with positive duration has a nonempty keyframe list. -/
theorem keyframes_ne_nil_of_duration_pos {α : Type} [LinearOrderedField α]
    {c : Clip α} (h : 0 < c.duration) : c.keyframes.isEmpty = false := by
  cases hk : c.keyframes with
  | nil =>
    exfalso
    rw [Clip.duration, hk] at h
    simp at h
  | cons a l => simp

/-- C7: for a clip in `LOOP` mode with positive duration `D`,
`sample (t + D) = sample t` for every time `t`: the loop normalization wraps
time modulo the duration, and `fmod` is periodic in the modulus. -/
theorem clip_sample_loop_periodic {α : Type} [LinearOrderedField α] [FloorRing α]
    (c : Clip α) (hmode : c.loop_mode = LoopMode.LOOP)
    (hdur : 0 < c.duration) (t : α) :
    c.sample (t + c.duration) = c.sample t := by
  have hne := keyframes_ne_nil_of_duration_pos hdur
  have hnorm : c.normTime (t + c.duration) = c.normTime t := by
    unfold Clip.normTime
    rw [hmode]
    rw [if_pos hdur, if_pos hdur]
    exact fmod_add_self t c.duration (ne_of_gt hdur)
  rw [Clip.sample, Clip.sample, hne, hnorm]

/-- C7 witness: a concrete rational clip with two keyframes at times 0 and
2 in `LOOP` mode, sampled at `t = 5`. -/
theorem clip_sample_loop_periodic_witness :
    (let c : Clip ℚ :=
      { name := "w", loop := true, fps := 24, loop_mode := LoopMode.LOOP,
        keyframes := [⟨0, [(1, 5)], InterpolationType.LINEAR⟩,
                      ⟨2, [(1, 9)], InterpolationType.LINEAR⟩] }
     c.loop_mode = LoopMode.LOOP ∧ 0 < c.duration ∧
       c.sample ((5 : ℚ) + c.duration) = c.sample 5) := by
  refine ⟨rfl, by decide, ?_⟩
  exact clip_sample_loop_periodic _ rfl (by decide) 5

/-- Helper: `getLast?` of a cons cell is the `getLastD` of its tail seeded
with its head. -/
theorem getLast?_cons_eq {β : Type _} (a : β) (l : List β) :
    (a :: l).getLast? = some (l.getLastD a) := by
  induction l generalizing a with
  | nil => rfl
  | cons b m ih => rw [List.getLast?_cons_cons, ih b, List.getLastD_cons]

/-- Helper: the duration of a clip with keyframes `k0 :: rest` is the time
of the last keyframe. -/
theorem duration_eq_getLastD {α : Type} [LinearOrderedField α] {c : Clip α}
    {k0 : Keyframe α} {rest : List (Keyframe α)} (h : c.keyframes = k0 :: rest) :
    c.duration = (rest.getLastD k0).time := by
  rw [Clip.duration, h, getLast?_cons_eq]

/-- C6 (amended): for a nonempty clip, (a) if the loop-normalized time is at
or before the first keyframe's time, `sample` returns the first keyframe's
angles verbatim; (b) under `ONCE` mode, if `t` is at or after the last
keyframe's time, `sample` returns the last keyframe's angles verbatim,
provided the normalized time strictly exceeds the first keyframe's time or
the clip has a single keyframe (when every keyframe shares one time, the
first-keyframe rule of (a) takes precedence over the last-keyframe rule). -/
theorem clip_sample_boundaries {α : Type} [LinearOrderedField α] [FloorRing α]
    (c : Clip α) (h : c.keyframes ≠ []) :
    (∀ t, c.normTime t ≤ (c.keyframes.headD default).time →
      c.sample t = (c.keyframes.headD default).bone_angles) ∧
    (c.loop_mode = LoopMode.ONCE →
      ∀ t, (c.keyframes.getLastD default).time ≤ t →
        ((c.keyframes.headD default).time < c.normTime t ∨ c.keyframes.length = 1) →
        c.sample t = (c.keyframes.getLastD default).bone_angles) := by
  obtain ⟨k0, rest, hk⟩ : ∃ k0 rest, c.keyframes = k0 :: rest := by
    cases hc : c.keyframes with
    | nil => exact absurd hc h
    | cons a l => exact ⟨a, l, rfl⟩
  have hemp : c.keyframes.isEmpty = false := by rw [hk]; rfl
  constructor
  · intro t ht
    rw [hk] at ht
    simp only [List.headD_cons] at ht
    rw [Clip.sample, hemp, if_neg (by simp), Clip.sampleAt, hk]
    simp only [hk, List.headD_cons]
    rw [if_pos ht]
  · intro hmode t hlast hside
    rw [hk] at hlast
    rw [List.getLastD_cons] at hlast
    have hdur : c.duration = (rest.getLastD k0).time := duration_eq_getLastD hk
    have hnorm_ge : (rest.getLastD k0).time ≤ c.normTime t := by
      rw [Clip.normTime, hmode, ← hdur]
      by_cases hpos : c.duration > 0
      · rw [if_pos hpos]
        simp only [ge_iff_le, le_min_iff]
        rw [hdur]
        exact ⟨hlast, le_refl _⟩
      · rw [if_neg hpos]
        rw [hdur]
        exact hlast
    rw [Clip.sample, hemp, if_neg (by simp), Clip.sampleAt, hk]
    simp only [hk, List.getLastD_cons]
    rcases hside with hgt | hone
    · rw [hk] at hgt
      simp only [List.headD_cons] at hgt
      rw [if_neg (not_le.mpr hgt)]
      rw [if_pos hnorm_ge]
    · rw [hk] at hone
      simp only [List.length_cons] at hone
      have hrest : rest = [] := List.length_eq_zero.mp (by omega)
      subst hrest
      simp only [List.getLastD_cons, List.getLastD_nil]
      by_cases hle : c.normTime t ≤ k0.time
      · rw [if_pos hle]
      · rw [if_neg hle]
        rw [if_pos (le_of_lt (not_le.mp hle))]

/-- C6 counterexample: a two-keyframe `ONCE` clip whose keyframes share
time `0` but carry different angles; sampling at `t = 0` satisfies the
claim's last-keyframe condition (`t` is at or after the last keyframe's
time) yet returns the first keyframe's angles, not the last's. -/
theorem clip_sample_boundaries_counterexample :
    (let c : Clip ℚ :=
      { name := "c", loop := false, fps := 24, loop_mode := LoopMode.ONCE,
        keyframes := [⟨0, [(1, 5)], InterpolationType.LINEAR⟩,
                      ⟨0, [(1, 9)], InterpolationType.LINEAR⟩] }
     c.loop_mode = LoopMode.ONCE ∧ c.keyframes ≠ [] ∧
       (c.keyframes.getLastD default).time ≤ (0 : ℚ) ∧
       c.sample 0 ≠ (c.keyframes.getLastD default).bone_angles) := by
  decide

/-- C6 witness: a concrete rational `ONCE` clip with keyframes at times 0
and 2; sampling before the start returns the first keyframe's angles, and
sampling after the end returns the last keyframe's angles. -/
theorem clip_sample_boundaries_witness :
    (let c : Clip ℚ :=
      { name := "w", loop := false, fps := 24, loop_mode := LoopMode.ONCE,
        keyframes := [⟨0, [(1, 5)], InterpolationType.LINEAR⟩,
                      ⟨2, [(1, 9)], InterpolationType.LINEAR⟩] }
     c.normTime (-1) ≤ (c.keyframes.headD default).time ∧
       c.sample (-1) = (c.keyframes.headD default).bone_angles ∧
       c.loop_mode = LoopMode.ONCE ∧
       (c.keyframes.getLastD default).time ≤ (3 : ℚ) ∧
       (c.keyframes.headD default).time < c.normTime 3 ∧
       c.sample 3 = (c.keyframes.getLastD default).bone_angles) := by
  intro c
  have h := clip_sample_boundaries c (by decide)
  exact ⟨by decide, h.1 (-1) (by decide), rfl, by decide, by decide,
    h.2 rfl 3 (by decide) (Or.inl (by decide))⟩

/-- Helper: the pose section of `update` changes only the skeleton; every
playback-state field is preserved. -/
theorem updatePose_fields (a : Animator) :
    (updatePose a).state = a.state ∧
    (updatePose a).current_clip = a.current_clip ∧
    (updatePose a).blend_clip = a.blend_clip ∧
    (updatePose a).blend_alpha = a.blend_alpha ∧
    (updatePose a).clips = a.clips ∧
    (updatePose a)._time = a._time ∧
    (updatePose a)._speed = a._speed ∧
    (updatePose a)._blend_duration = a._blend_duration ∧
    (updatePose a)._blend_time = a._blend_time := by
  unfold updatePose
  split
  · exact ⟨rfl, rfl, rfl, rfl, rfl, rfl, rfl, rfl, rfl⟩
  · split
    · exact ⟨rfl, rfl, rfl, rfl, rfl, rfl, rfl, rfl, rfl⟩
    · split
      · exact ⟨rfl, rfl, rfl, rfl, rfl, rfl, rfl, rfl, rfl⟩
      · exact ⟨rfl, rfl, rfl, rfl, rfl, rfl, rfl, rfl, rfl⟩

/-- C5: calling `play`, `blend`, or `transition_to` with a clip name absent
from the clip set signals the not-found error and returns the animator
completely unchanged (the lookup check precedes every mutation, so the
rejection is atomic; in particular the skeleton is untouched). -/
theorem animator_notfound_atomic (a : Animator) (nm clip1 clip2 : String)
    (reset_time : Bool) (speed alpha duration : ℝ) :
    ((a.clips.lookup nm).isNone = true →
      a.play nm reset_time speed = (some ("Clip " ++ nm ++ " not found"), a) ∧
      a.transition_to nm duration = (some ("Clip " ++ nm ++ " not found"), a)) ∧
    ((a.clips.lookup clip1).isNone = true ∨ (a.clips.lookup clip2).isNone = true →
      a.blend clip1 clip2 alpha = (some "One or more clips not found", a)) := by
  constructor
  · intro h
    constructor
    · rw [Animator.play, if_pos h]
    · rw [Animator.transition_to, if_pos h]
  · intro h
    rw [Animator.blend, if_pos h]

/-- C5 witness: a concrete animator with an empty clip set rejects all
three operations without any state change. -/
theorem animator_notfound_atomic_witness :
    (let a := Animator.init ⟨[], 0, 0⟩ []
     (a.clips.lookup "x").isNone = true ∧
       a.play "x" true 1 = (some ("Clip " ++ "x" ++ " not found"), a) ∧
       a.transition_to "x" 1 = (some ("Clip " ++ "x" ++ " not found"), a) ∧
       a.blend "x" "y" (1/2) = (some "One or more clips not found", a)) := by
  intro a
  have h := animator_notfound_atomic a "x" "x" "y" true 1 (1/2) 1
  exact ⟨rfl, (h.1 rfl).1, (h.1 rfl).2, h.2 (Or.inl rfl)⟩

/-- Helper: every single animator operation (with a nonnegative `dt` for
`update`) preserves the invariant that `blend_alpha` lies in `[0, 1]` and
the blend timer is nonnegative. -/
theorem applyOp_alpha_inv (a : Animator) (op : AnimOp)
    (h0 : 0 ≤ a.blend_alpha) (h1 : a.blend_alpha ≤ 1) (hbt : 0 ≤ a._blend_time)
    (hdt : ∀ dt, op = AnimOp.update dt → 0 ≤ dt) :
    0 ≤ (applyOp a op).blend_alpha ∧ (applyOp a op).blend_alpha ≤ 1 ∧
      0 ≤ (applyOp a op)._blend_time := by
  cases op with
  | play n r s =>
    simp only [applyOp, Animator.play]
    split_ifs with hc
    · exact ⟨h0, h1, hbt⟩
    · exact ⟨le_refl 0, zero_le_one, hbt⟩
    · exact ⟨le_refl 0, zero_le_one, hbt⟩
  | stop => exact ⟨h0, h1, hbt⟩
  | pause =>
    simp only [applyOp, Animator.pause]
    split_ifs with hc
    · exact ⟨h0, h1, hbt⟩
    · exact ⟨h0, h1, hbt⟩
  | resume =>
    simp only [applyOp, Animator.resume]
    split_ifs with hc
    · exact ⟨h0, h1, hbt⟩
    · exact ⟨h0, h1, hbt⟩
  | blend c1 c2 al =>
    simp only [applyOp, Animator.blend]
    split_ifs with hc
    · exact ⟨h0, h1, hbt⟩
    · refine ⟨le_max_left 0 _, max_le zero_le_one (min_le_left 1 al), hbt⟩
  | transition n d =>
    simp only [applyOp, Animator.transition_to]
    split_ifs with hc htr
    · exact ⟨h0, h1, hbt⟩
    · exact ⟨h0, h1, le_refl 0⟩
    · simp only [Animator.play]
      rw [if_neg hc]
      exact ⟨le_refl 0, zero_le_one, hbt⟩
  | addClip c => exact ⟨h0, h1, hbt⟩
  | update dt =>
    have hdt' : 0 ≤ dt := hdt dt rfl
    simp only [applyOp, Animator.update]
    split_ifs with hsp
    · exact ⟨h0, h1, hbt⟩
    · obtain ⟨-, -, -, f4, -, -, -, -, f9⟩ :=
        updatePose_fields (updateBlendTimer { a with _time := a._time + dt * a._speed } dt)
      rw [f4, f9]
      unfold updateBlendTimer
      split_ifs with hb hge
      · exact ⟨le_refl 0, zero_le_one, by positivity⟩
      · refine ⟨?_, min_le_left 1 _, by positivity⟩
        have hdur : (0 : ℝ) < a._blend_duration := hb.2
        have : (0 : ℝ) ≤ (a._blend_time + dt) / a._blend_duration :=
          div_nonneg (by positivity) (le_of_lt hdur)
        exact le_min zero_le_one this
      · exact ⟨h0, h1, hbt⟩

/-- Helper: the `[0, 1]`-invariant on `blend_alpha` is preserved by any
operation sequence whose update steps use nonnegative `dt`. -/
theorem applyOps_alpha_inv (ops : List AnimOp) (a : Animator)
    (h0 : 0 ≤ a.blend_alpha) (h1 : a.blend_alpha ≤ 1) (hbt : 0 ≤ a._blend_time)
    (hdt : ∀ dt, AnimOp.update dt ∈ ops → 0 ≤ dt) :
    0 ≤ (applyOps a ops).blend_alpha ∧ (applyOps a ops).blend_alpha ≤ 1 ∧
      0 ≤ (applyOps a ops)._blend_time := by
  induction ops generalizing a with
  | nil => exact ⟨h0, h1, hbt⟩
  | cons op rest ih =>
    have hstep := applyOp_alpha_inv a op h0 h1 hbt
      (fun dt he => hdt dt (by rw [he]; exact List.mem_cons_self _ _))
    exact ih (applyOp a op) hstep.1 hstep.2.1 hstep.2.2
      (fun dt hm => hdt dt (List.mem_cons_of_mem _ hm))

/-- C10: over every operation sequence from a fresh animator whose `update`
steps use nonnegative `dt`, the field `blend_alpha` remains in `[0, 1]`:
`blend` clamps its argument, `update` sets `min 1 (blend_time /
blend_duration)` with a nonnegative accumulated timer, and transition
completion resets the alpha to `0`. -/
theorem animator_blend_alpha_in_unit (sk : Skeleton) (clips : List (String × Clip ℝ))
    (ops : List AnimOp) (hdt : ∀ dt, AnimOp.update dt ∈ ops → 0 ≤ dt) :
    0 ≤ (applyOps (Animator.init sk clips) ops).blend_alpha ∧
      (applyOps (Animator.init sk clips) ops).blend_alpha ≤ 1 := by
  have h := applyOps_alpha_inv ops (Animator.init sk clips)
    (le_refl 0) zero_le_one (le_refl 0) hdt
  exact ⟨h.1, h.2.1⟩

/-- C10 witness: a concrete playback run on an empty animator. -/
theorem animator_blend_alpha_in_unit_witness :
    ((∀ dt, AnimOp.update dt ∈ [AnimOp.update 1] → 0 ≤ dt) ∧
      0 ≤ (applyOps (Animator.init ⟨[], 0, 0⟩ []) [AnimOp.update 1]).blend_alpha ∧
      (applyOps (Animator.init ⟨[], 0, 0⟩ []) [AnimOp.update 1]).blend_alpha ≤ 1) := by
  have hdt : ∀ dt, AnimOp.update dt ∈ [AnimOp.update 1] → 0 ≤ dt := by
    intro dt hm
    simp only [List.mem_singleton, AnimOp.update.injEq] at hm
    subst hm
    norm_num
  exact ⟨hdt, animator_blend_alpha_in_unit ⟨[], 0, 0⟩ [] [AnimOp.update 1] hdt⟩

/-- Helper: once an animator is playing clip `B` with no blend target,
further `update` calls keep it so (`update` only changes the current clip
inside the blending-completion branch). -/
theorem update_done_absorbing (a : Animator) (B : String) (dt : ℝ)
    (hs : a.state = PlaybackState.PLAYING) (hc : a.current_clip = some B)
    (hb : a.blend_clip = none) :
    (a.update dt).state = PlaybackState.PLAYING ∧
      (a.update dt).current_clip = some B ∧ (a.update dt).blend_clip = none := by
  unfold Animator.update
  rw [if_neg (by simp [hs])]
  obtain ⟨f1, f2, f3, -, -, -, -, -, -⟩ :=
    updatePose_fields (updateBlendTimer { a with _time := a._time + dt * a._speed } dt)
  rw [f1, f2, f3]
  unfold updateBlendTimer
  rw [if_neg (by simp [hs])]
  exact ⟨hs, hc, hb⟩

/-- Helper: an `update` while blending with a positive duration whose
accumulated blend time reaches the duration completes the transition:
state returns to playing, the blend target becomes current and is
cleared. -/
theorem update_blending_complete (a : Animator) (dt : ℝ)
    (hs : a.state = PlaybackState.BLENDING) (hdur : 0 < a._blend_duration)
    (hge : a._blend_duration ≤ a._blend_time + dt) :
    (a.update dt).state = PlaybackState.PLAYING ∧
      (a.update dt).current_clip = a.blend_clip ∧ (a.update dt).blend_clip = none := by
  unfold Animator.update
  rw [if_neg (by simp [hs])]
  obtain ⟨f1, f2, f3, -, -, -, -, -, -⟩ :=
    updatePose_fields (updateBlendTimer { a with _time := a._time + dt * a._speed } dt)
  rw [f1, f2, f3]
  unfold updateBlendTimer
  rw [if_pos (show _ ∧ _ from ⟨hs, hdur⟩)]
  rw [if_pos (le_min (le_refl 1) ((one_le_div hdur).mpr hge))]
  exact ⟨rfl, rfl, rfl⟩

/-- Helper: an `update` while blending with a positive duration whose
accumulated blend time stays below the duration keeps the blend in
progress, advancing only the timer. -/
theorem update_blending_partial (a : Animator) (dt : ℝ)
    (hs : a.state = PlaybackState.BLENDING) (hdur : 0 < a._blend_duration)
    (hlt : a._blend_time + dt < a._blend_duration) :
    (a.update dt).state = PlaybackState.BLENDING ∧
      (a.update dt).blend_clip = a.blend_clip ∧
      (a.update dt)._blend_duration = a._blend_duration ∧
      (a.update dt)._blend_time = a._blend_time + dt := by
  unfold Animator.update
  rw [if_neg (by simp [hs])]
  obtain ⟨f1, -, f3, -, -, -, -, f8, f9⟩ :=
    updatePose_fields (updateBlendTimer { a with _time := a._time + dt * a._speed } dt)
  rw [f1, f3, f8, f9]
  unfold updateBlendTimer
  rw [if_pos (show _ ∧ _ from ⟨hs, hdur⟩)]
  have hx : (a._blend_time + dt) / a._blend_duration < 1 := (div_lt_one hdur).mpr hlt
  rw [if_neg (not_le.mpr (lt_of_le_of_lt (min_le_right 1 _) hx))]
  exact ⟨hs, rfl, rfl, rfl⟩

/-- Helper: folding `update` over nonnegative `dt`s whose total, together
with the already-accumulated blend time, covers the blend duration drives a
blending-toward-`B` animator to the completed state playing `B`. -/
theorem transition_fold (B : String) (d : ℝ) (hd : 0 < d) :
    ∀ (dts : List ℝ) (a : Animator), (∀ x ∈ dts, 0 ≤ x) →
    ((a.state = PlaybackState.BLENDING ∧ a.blend_clip = some B ∧
      a._blend_duration = d ∧ 0 ≤ a._blend_time ∧ a._blend_time < d ∧
      d ≤ a._blend_time + dts.sum) ∨
     (a.state = PlaybackState.PLAYING ∧ a.current_clip = some B ∧
      a.blend_clip = none)) →
    (applyUpdates a dts).state = PlaybackState.PLAYING ∧
      (applyUpdates a dts).current_clip = some B ∧
      (applyUpdates a dts).blend_clip = none := by
  intro dts
  induction dts with
  | nil =>
    intro a _ h
    rcases h with ⟨-, -, -, -, hlt, hge⟩ | hdone
    · rw [List.sum_nil, add_zero] at hge
      exact absurd hge (not_le.mpr hlt)
    · exact hdone
  | cons dt rest ih =>
    intro a hnn h
    have hdt : 0 ≤ dt := hnn dt (List.mem_cons_self _ _)
    have hrest : ∀ x ∈ rest, 0 ≤ x := fun x hx => hnn x (List.mem_cons_of_mem _ hx)
    have hfold : applyUpdates a (dt :: rest) = applyUpdates (a.update dt) rest := rfl
    rw [hfold]
    rcases h with ⟨hs, hbc, hdur, hbt0, hbtlt, hsum⟩ | hdone
    · by_cases hcross : d ≤ a._blend_time + dt
      · have hc := update_blending_complete a dt hs (hdur ▸ hd) (by rw [hdur]; exact hcross)
        exact ih (a.update dt) hrest (Or.inr ⟨hc.1, by rw [hc.2.1, hbc], hc.2.2⟩)
      · have hp := update_blending_partial a dt hs (hdur ▸ hd)
          (by rw [hdur]; exact not_le.mp hcross)
        refine ih (a.update dt) hrest (Or.inl ⟨hp.1, by rw [hp.2.1, hbc],
          by rw [hp.2.2.1, hdur], by rw [hp.2.2.2]; linarith,
          by rw [hp.2.2.2]; exact not_le.mp hcross, ?_⟩)
        rw [hp.2.2.2]
        rw [List.sum_cons] at hsum
        linarith
    · have habs := update_done_absorbing a B dt hdone.1 hdone.2.1 hdone.2.2
      exact ih (a.update dt) hrest (Or.inr habs)

/-- C3: from an animator playing a (truthily named) current clip `A`, with
clips `A` and `B` present, calling `transition_to B d` with `d > 0` and
then `update` repeatedly with nonnegative `dt`s summing to at least `d`
leaves the animator playing with `current_clip = B` and the blend clip
cleared. -/
theorem transition_to_completes (a : Animator) (A B : String) (d : ℝ)
    (hstate : a.state = PlaybackState.PLAYING) (hcur : a.current_clip = some A)
    (hA : A ≠ "") (hAin : (a.clips.lookup A).isSome = true)
    (hBin : (a.clips.lookup B).isSome = true) (hd : 0 < d)
    (dts : List ℝ) (hnn : ∀ x ∈ dts, 0 ≤ x) (hsum : d ≤ dts.sum) :
    (applyUpdates (a.transition_to B d).2 dts).state = PlaybackState.PLAYING ∧
      (applyUpdates (a.transition_to B d).2 dts).current_clip = some B ∧
      (applyUpdates (a.transition_to B d).2 dts).blend_clip = none := by
  obtain ⟨cB, hcB⟩ := Option.isSome_iff_exists.mp hBin
  have h1 : (a.transition_to B d).2 =
      { a with blend_clip := some B, _blend_duration := d, _blend_time := 0,
               state := PlaybackState.BLENDING } := by
    unfold Animator.transition_to
    rw [hcB]
    rw [if_neg (by simp)]
    rw [if_pos (by rw [hcur]; simp [truthy, hA])]
  rw [h1]
  exact transition_fold B d hd dts _ hnn
    (Or.inl ⟨rfl, rfl, rfl, le_refl 0, hd, by simpa using hsum⟩)

/-- C3 witness: a two-clip animator playing `A` transitions to `B` over
duration 1 and completes after a single update of `dt = 1`. -/
theorem transition_to_completes_witness :
    (let c : Clip ℝ :=
      { name := "A", keyframes := [], loop := true, fps := 24,
        loop_mode := LoopMode.LOOP }
     let a := (Animator.init ⟨[], 0, 0⟩ [("A", c), ("B", c)]).play "A" true 1
     (a.2.state = PlaybackState.PLAYING ∧ a.2.current_clip = some "A" ∧
       "A" ≠ "" ∧ (a.2.clips.lookup "A").isSome = true ∧
       (a.2.clips.lookup "B").isSome = true ∧ (0 : ℝ) < 1 ∧
       (∀ x ∈ [(1 : ℝ)], 0 ≤ x) ∧ (1 : ℝ) ≤ [(1 : ℝ)].sum) ∧
      (applyUpdates (a.2.transition_to "B" 1).2 [(1 : ℝ)]).state =
          PlaybackState.PLAYING ∧
        (applyUpdates (a.2.transition_to "B" 1).2 [(1 : ℝ)]).current_clip = some "B" ∧
        (applyUpdates (a.2.transition_to "B" 1).2 [(1 : ℝ)]).blend_clip = none) := by
  intro c a
  have hnn : ∀ x ∈ [(1 : ℝ)], 0 ≤ x := by
    intro x hx
    simp only [List.mem_singleton] at hx
    rw [hx]
    norm_num
  have hsum : (1 : ℝ) ≤ [(1 : ℝ)].sum := by simp
  exact ⟨⟨rfl, rfl, by decide, rfl, rfl, by norm_num, hnn, hsum⟩,
    transition_to_completes a.2 "A" "B" 1 rfl rfl (by decide) rfl rfl
      (by norm_num) [(1 : ℝ)] hnn hsum⟩

/-- Helper: when no positive blend duration is set, `update` leaves the
blend alpha, current clip, blend clip and blend duration unchanged (the
timed-transition branch is never entered). -/
theorem update_no_timer (a : Animator) (dt : ℝ) (hdur : a._blend_duration ≤ 0) :
    (a.update dt).blend_alpha = a.blend_alpha ∧
      (a.update dt).current_clip = a.current_clip ∧
      (a.update dt).blend_clip = a.blend_clip ∧
      (a.update dt)._blend_duration = a._blend_duration := by
  unfold Animator.update
  split_ifs with h
  · exact ⟨rfl, rfl, rfl, rfl⟩
  · obtain ⟨-, f2, f3, f4, -, -, -, f8, -⟩ :=
      updatePose_fields (updateBlendTimer { a with _time := a._time + dt * a._speed } dt)
    rw [f2, f3, f4, f8]
    unfold updateBlendTimer
    rw [if_neg (fun hc => absurd hc.2 (not_lt.mpr hdur))]
    exact ⟨rfl, rfl, rfl, rfl⟩

/-- Helper: with no positive blend duration set, any sequence of `update`
calls leaves the blend alpha, current clip and blend clip unchanged. -/
theorem applyUpdates_no_timer (dts : List ℝ) (a : Animator)
    (hdur : a._blend_duration ≤ 0) :
    (applyUpdates a dts).blend_alpha = a.blend_alpha ∧
      (applyUpdates a dts).current_clip = a.current_clip ∧
      (applyUpdates a dts).blend_clip = a.blend_clip := by
  induction dts generalizing a with
  | nil => exact ⟨rfl, rfl, rfl⟩
  | cons dt rest ih =>
    have h := update_no_timer a dt hdur
    have hfold : applyUpdates a (dt :: rest) = applyUpdates (a.update dt) rest := rfl
    rw [hfold]
    have ih' := ih (a.update dt) (by rw [h.2.2.2]; exact hdur)
    exact ⟨by rw [ih'.1, h.1], by rw [ih'.2.1, h.2.1], by rw [ih'.2.2, h.2.2.1]⟩

/-- C4 (amended): after `blend(clip1, clip2, alpha)` with both clips
present, subsequent `update` calls neither modify `blend_alpha` nor replace
the current clip, PROVIDED no positive timed-blend duration is pending
(`_blend_duration ≤ 0`, as in a fresh animator): `blend` itself never
engages the timer, but it also does not clear a duration left behind by an
earlier `transition_to`, so the restriction is necessary (see the
counterexample). -/
theorem blend_static_without_pending_timer (a : Animator) (clip1 clip2 : String)
    (alpha : ℝ) (hdur : a._blend_duration ≤ 0)
    (h1 : (a.clips.lookup clip1).isSome = true)
    (h2 : (a.clips.lookup clip2).isSome = true) (dts : List ℝ) :
    (applyUpdates (a.blend clip1 clip2 alpha).2 dts).blend_alpha =
        max 0 (min 1 alpha) ∧
      (applyUpdates (a.blend clip1 clip2 alpha).2 dts).current_clip = some clip1 ∧
      (applyUpdates (a.blend clip1 clip2 alpha).2 dts).blend_clip = some clip2 := by
  obtain ⟨v1, hv1⟩ := Option.isSome_iff_exists.mp h1
  obtain ⟨v2, hv2⟩ := Option.isSome_iff_exists.mp h2
  have hb : (a.blend clip1 clip2 alpha).2 =
      { a with current_clip := some clip1, blend_clip := some clip2,
               blend_alpha := max 0 (min 1 alpha),
               state := PlaybackState.BLENDING } := by
    unfold Animator.blend
    rw [hv1, hv2, if_neg (by simp)]
  rw [hb]
  exact applyUpdates_no_timer dts _ hdur

/-- C4 counterexample: a prior completed `transition_to` leaves
`_blend_duration` positive; a following `blend` with alpha `1/2` is then
hijacked by the stale timer on the very next `update`, which overwrites
`blend_alpha` (to `0`) and completes a transition replacing the current
clip, contradicting the claim for arbitrary reachable animator states. -/
theorem blend_timer_hijack_counterexample :
    (((((Animator.init ⟨[], 0, 0⟩ [("A", emptyLoopClip "A"), ("B", emptyLoopClip "B")]).play
          "A" true 1).2.transition_to "B" 1).2.update 2).blend "A" "B" (1/2)).2.blend_alpha
        = 1/2 ∧
    ((((((Animator.init ⟨[], 0, 0⟩ [("A", emptyLoopClip "A"), ("B", emptyLoopClip "B")]).play
          "A" true 1).2.transition_to "B" 1).2.update 2).blend "A" "B" (1/2)).2.update 1).blend_alpha
        = 0 ∧
    ((((((Animator.init ⟨[], 0, 0⟩ [("A", emptyLoopClip "A"), ("B", emptyLoopClip "B")]).play
          "A" true 1).2.transition_to "B" 1).2.update 2).blend "A" "B" (1/2)).2.update 1).current_clip
        = some "B" := by
  have hinit : (Animator.init ⟨[], 0, 0⟩
        [("A", emptyLoopClip "A"), ("B", emptyLoopClip "B")]).play "A" true 1 =
      (none, Animator.mk ⟨[], 0, 0⟩
        [("A", emptyLoopClip "A"), ("B", emptyLoopClip "B")] PlaybackState.PLAYING
        (some "A") none 0 0 1 0 0) := rfl
  rw [hinit]
  have htr : (Animator.mk ⟨[], 0, 0⟩
        [("A", emptyLoopClip "A"), ("B", emptyLoopClip "B")] PlaybackState.PLAYING
        (some "A") none 0 0 1 0 0).transition_to "B" 1 =
      (none, Animator.mk ⟨[], 0, 0⟩
        [("A", emptyLoopClip "A"), ("B", emptyLoopClip "B")] PlaybackState.BLENDING
        (some "A") (some "B") 0 0 1 1 0) := rfl
  rw [htr]
  have hup : (Animator.mk ⟨[], 0, 0⟩
        [("A", emptyLoopClip "A"), ("B", emptyLoopClip "B")] PlaybackState.BLENDING
        (some "A") (some "B") 0 0 1 1 0).update 2 =
      Animator.mk ⟨[], 0, 0⟩
        [("A", emptyLoopClip "A"), ("B", emptyLoopClip "B")] PlaybackState.PLAYING
        (some "B") none 0 2 1 1 2 := by
    unfold Animator.update
    rw [if_neg (by simp)]
    unfold updateBlendTimer
    rw [if_pos (by norm_num)]
    rw [if_pos (by norm_num)]
    simp only [updatePose, List.lookup,
      show (("B" : String) == "") = false from rfl,
      show (("B" : String) == "A") = false from rfl,
      show (("B" : String) == "B") = true from rfl]
    norm_num [Clip.sample, emptyLoopClip, applyPose,
      calculate_forward_kinematics, Skeleton.root_bones]
  rw [hup]
  have hbl : (Animator.mk ⟨[], 0, 0⟩
        [("A", emptyLoopClip "A"), ("B", emptyLoopClip "B")] PlaybackState.PLAYING
        (some "B") none 0 2 1 1 2).blend "A" "B" (1/2) =
      (none, Animator.mk ⟨[], 0, 0⟩
        [("A", emptyLoopClip "A"), ("B", emptyLoopClip "B")] PlaybackState.BLENDING
        (some "A") (some "B") (max 0 (min 1 (1/2))) 2 1 1 2) := rfl
  rw [hbl]
  have hup2 : (Animator.mk ⟨[], 0, 0⟩
        [("A", emptyLoopClip "A"), ("B", emptyLoopClip "B")] PlaybackState.BLENDING
        (some "A") (some "B") (max 0 (min 1 (1/2))) 2 1 1 2).update 1 =
      Animator.mk ⟨[], 0, 0⟩
        [("A", emptyLoopClip "A"), ("B", emptyLoopClip "B")] PlaybackState.PLAYING
        (some "B") none 0 3 1 1 3 := by
    unfold Animator.update
    rw [if_neg (by simp)]
    unfold updateBlendTimer
    rw [if_pos (by norm_num)]
    rw [if_pos (by norm_num)]
    simp only [updatePose, List.lookup,
      show (("B" : String) == "") = false from rfl,
      show (("B" : String) == "A") = false from rfl,
      show (("B" : String) == "B") = true from rfl]
    norm_num [Clip.sample, emptyLoopClip, applyPose,
      calculate_forward_kinematics, Skeleton.root_bones]
  rw [hup2]
  refine ⟨by norm_num, rfl, rfl⟩

/-- C4 witness: on a fresh animator (no pending timed-blend duration),
`blend` followed by an update leaves the clamped alpha and both clip slots
untouched. -/
theorem blend_static_without_pending_timer_witness :
    (let c : Clip ℝ :=
      { name := "A", keyframes := [], loop := true, fps := 24,
        loop_mode := LoopMode.LOOP }
     let a := Animator.init ⟨[], 0, 0⟩ [("A", c), ("B", c)]
     a._blend_duration ≤ 0 ∧ (a.clips.lookup "A").isSome = true ∧
       (a.clips.lookup "B").isSome = true ∧
       (applyUpdates (a.blend "A" "B" (1/2)).2 [(1 : ℝ)]).blend_alpha =
           max 0 (min 1 (1/2)) ∧
       (applyUpdates (a.blend "A" "B" (1/2)).2 [(1 : ℝ)]).current_clip = some "A" ∧
       (applyUpdates (a.blend "A" "B" (1/2)).2 [(1 : ℝ)]).blend_clip = some "B") := by
  intro c a
  have h := blend_static_without_pending_timer a "A" "B" (1/2)
    (le_refl 0) rfl rfl [(1 : ℝ)]
  exact ⟨le_refl 0, rfl, rfl, h.1, h.2.1, h.2.2⟩

/-- C9: a chain of fewer than two bones makes `calculate_inverse_kinematics`
return `false` without touching the skeleton. -/
theorem ik_short_chain_noop (sk : Skeleton) (eid : Int) (tx ty : ℝ)
    (iters : Nat) (tol : ℝ) (h : (sk.get_chain eid).length < 2) :
    calculate_inverse_kinematics sk eid tx ty iters tol = (sk, false) := by
  unfold calculate_inverse_kinematics
  rw [if_pos h]

/-- C9 witness: the empty skeleton resolves an empty chain and the IK call
is the identity returning `false`. -/
theorem ik_short_chain_noop_witness :
    ((⟨[], 0, 0⟩ : Skeleton).get_chain 0).length < 2 ∧
      calculate_inverse_kinematics ⟨[], 0, 0⟩ 0 1 2 20 (1/100) = (⟨[], 0, 0⟩, false) := by
  have h : ((⟨[], 0, 0⟩ : Skeleton).get_chain 0).length < 2 := by
    norm_num [Skeleton.get_chain, chainWalk, Skeleton.get_bone]
  exact ⟨h, ik_short_chain_noop ⟨[], 0, 0⟩ 0 1 2 20 (1/100) h⟩

/-- Helper: `pdist` is nonnegative. -/
theorem pdist_nonneg (p q : ℝ × ℝ) : 0 ≤ pdist p q := Real.sqrt_nonneg _

/-- Helper: the distance from a point to itself is zero. -/
theorem pdist_self (p : ℝ × ℝ) : pdist p p = 0 := by simp [pdist]

/-- Helper: zero distance characterizes equal points. -/
theorem pdist_eq_zero_iff {p q : ℝ × ℝ} : pdist p q = 0 ↔ q = p := by
  rw [pdist, Real.sqrt_eq_zero']
  constructor
  · intro h
    have h1 : (q.1 - p.1) ^ 2 = 0 := by
      nlinarith [sq_nonneg (q.1 - p.1), sq_nonneg (q.2 - p.2)]
    have h2 : (q.2 - p.2) ^ 2 = 0 := by
      nlinarith [sq_nonneg (q.1 - p.1), sq_nonneg (q.2 - p.2)]
    have e1 : q.1 - p.1 = 0 := (pow_eq_zero_iff two_ne_zero).mp h1
    have e2 : q.2 - p.2 = 0 := (pow_eq_zero_iff two_ne_zero).mp h2
    exact Prod.ext_iff.mpr ⟨by linarith, by linarith⟩
  · intro h
    rw [h]
    norm_num

/-- Helper: scaling both displacement components scales the Euclidean norm
by the absolute factor. -/
theorem sqrt_sq_scale (c x y : ℝ) :
    Real.sqrt ((c * x) ^ 2 + (c * y) ^ 2) = |c| * Real.sqrt (x ^ 2 + y ^ 2) := by
  rw [show (c * x) ^ 2 + (c * y) ^ 2 = c ^ 2 * (x ^ 2 + y ^ 2) by ring,
    Real.sqrt_mul (sq_nonneg c), Real.sqrt_sq_eq_abs]

/-- Helper: placing toward a coincident point leaves the point unchanged
(the `1e-9` epsilon branch). -/
theorem place_eq_self {a b : ℝ × ℝ} (h : pdist a b = 0) (len : ℝ) :
    place a b len = a := by
  have hb : b = a := pdist_eq_zero_iff.mp h
  subst hb
  simp only [place]
  rw [Prod.ext_iff]
  constructor <;> · simp only; ring

/-- Helper: `place` as a displacement from its base point. -/
theorem place_formula (a b : ℝ × ℝ) (len : ℝ) (h : 0 < pdist a b) :
    place a b len = (a.1 + len / pdist a b * (b.1 - a.1),
      a.2 + len / pdist a b * (b.2 - a.2)) := by
  simp only [place]
  rw [if_pos h, Prod.ext_iff]
  constructor <;> · simp only; ring

/-- Helper: placing a non-coincident point lands at exactly the requested
distance from the base point. -/
theorem pdist_place (a b : ℝ × ℝ) (len : ℝ) (h : 0 < pdist a b) :
    pdist a (place a b len) = |len| := by
  rw [place_formula a b len h]
  have hx : pdist a (a.1 + len / pdist a b * (b.1 - a.1),
      a.2 + len / pdist a b * (b.2 - a.2)) =
      Real.sqrt ((len / pdist a b * (b.1 - a.1)) ^ 2 +
        (len / pdist a b * (b.2 - a.2)) ^ 2) := by
    simp only [pdist]
    ring_nf
  rw [hx, sqrt_sq_scale]
  have : Real.sqrt ((b.1 - a.1) ^ 2 + (b.2 - a.2) ^ 2) = pdist a b := rfl
  rw [this, abs_div, abs_of_pos h, div_mul_cancel₀]
  exact ne_of_gt h

/-- Helper: one `place` step lands at the bone's length from the base, or
collapses onto a coincident base point. -/
theorem pdist_place_or (a b : ℝ × ℝ) (len : ℝ) (hlen : 0 ≤ len) :
    pdist a (place a b len) = len ∨ pdist a (place a b len) = 0 := by
  rcases lt_or_eq_of_le (pdist_nonneg a b) with h | h
  · left
    rw [pdist_place a b len h, abs_of_nonneg hlen]
  · right
    rw [place_eq_self h.symm, pdist_self]

/-- Helper: the backward-reaching pass preserves segment lengths (up to the
degenerate collapsed case) for nonnegative bone lengths. -/
theorem segLenOk_reachOut : ∀ (lens : List ℝ) (qs : List (ℝ × ℝ)) (p : ℝ × ℝ),
    (∀ L ∈ lens, 0 ≤ L) → lens.length ≤ qs.length →
    SegLenOk lens (p :: reachOut p lens qs) := by
  intro lens
  induction lens with
  | nil => intro qs p _ _; trivial
  | cons len rest ih =>
    intro qs p hnn hlen
    cases qs with
    | nil => simp at hlen
    | cons q qs' =>
      refine ⟨pdist_place_or p q len (hnn len (List.mem_cons_self _ _)), ?_⟩
      exact ih qs' (place p q len) (fun L hL => hnn L (List.mem_cons_of_mem _ hL))
        (by simpa using hlen)

/-- Helper: the stretch pass preserves segment lengths (up to the
degenerate collapsed case) for nonnegative bone lengths. -/
theorem segLenOk_stretch : ∀ (lens : List ℝ) (p t : ℝ × ℝ),
    (∀ L ∈ lens, 0 ≤ L) → SegLenOk lens (p :: stretchPass t p lens) := by
  intro lens
  induction lens with
  | nil => intro p t _; trivial
  | cons len rest ih =>
    intro p t hnn
    refine ⟨pdist_place_or p t len (hnn len (List.mem_cons_self _ _)), ?_⟩
    exact ih (place p t len) t (fun L hL => hnn L (List.mem_cons_of_mem _ hL))

/-- Helper: length of the forward-reaching pass output. -/
theorem reachIn_length (t : ℝ × ℝ) : ∀ (lens : List ℝ) (ps : List (ℝ × ℝ)),
    (reachIn t lens ps).length = min lens.length ps.length := by
  intro lens
  induction lens with
  | nil => intro ps; simp [reachIn]
  | cons len rest ih =>
    intro ps
    cases ps with
    | nil => simp [reachIn]
    | cons p ps' =>
      show (place ((reachIn t rest ps').headD t) p len :: reachIn t rest ps').length = _
      simp [ih ps', Nat.succ_min_succ]

/-- Helper: length of the backward-reaching pass output. -/
theorem reachOut_length : ∀ (lens : List ℝ) (qs : List (ℝ × ℝ)) (p : ℝ × ℝ),
    (reachOut p lens qs).length = min lens.length qs.length := by
  intro lens
  induction lens with
  | nil => intro qs p; simp [reachOut]
  | cons len rest ih =>
    intro qs p
    cases qs with
    | nil => simp [reachOut]
    | cons q qs' =>
      show (place p q len :: reachOut (place p q len) rest qs').length = _
      simp [ih qs', Nat.succ_min_succ]

/-- Helper: one FABRIK iteration preserves the `N + 1` position-list
length. -/
theorem fabrikStep_length (root t : ℝ × ℝ) (lens : List ℝ) (ps : List (ℝ × ℝ))
    (h : ps.length = lens.length + 1) :
    (fabrikStep root t lens ps).length = lens.length + 1 := by
  unfold fabrikStep
  simp [reachOut_length, reachIn_length, List.length_tail, h]

/-- Helper: with at least one iteration, the FABRIK loop's output is the
output of a final full iteration on some same-length position list (both
the break exit and the exhaustion exit return a freshly computed
iteration). -/
theorem fabrikLoop_eq_step (root t : ℝ × ℝ) (lens : List ℝ) (tol : ℝ) :
    ∀ (n : Nat) (ps : List (ℝ × ℝ)), 1 ≤ n → ps.length = lens.length + 1 →
    ∃ qs, qs.length = lens.length + 1 ∧
      fabrikLoop n root t lens tol ps = fabrikStep root t lens qs := by
  intro n
  induction n with
  | zero => intro ps h; omega
  | succ n ih =>
    intro ps _ hlen
    by_cases hbr : pdist ((fabrikStep root t lens ps).getLastD t) t < tol
    · refine ⟨ps, hlen, ?_⟩
      show (if pdist ((fabrikStep root t lens ps).getLastD t) t < tol then _ else _) = _
      rw [if_pos hbr]
    · cases n with
      | zero =>
        refine ⟨ps, hlen, ?_⟩
        show (if pdist ((fabrikStep root t lens ps).getLastD t) t < tol then _ else _) = _
        rw [if_neg hbr]
        rfl
      | succ m =>
        obtain ⟨qs, hq1, hq2⟩ := ih (fabrikStep root t lens ps) (by omega)
          (fabrikStep_length root t lens ps hlen)
        refine ⟨qs, hq1, ?_⟩
        show (if pdist ((fabrikStep root t lens ps).getLastD t) t < tol then _ else _) = _
        rw [if_neg hbr]
        exact hq2

/-- Helper: a full FABRIK iteration ends with the backward-reaching pass,
so its output satisfies the segment-length property. -/
theorem segLenOk_fabrikStep (root t : ℝ × ℝ) (lens : List ℝ) (qs : List (ℝ × ℝ))
    (hnn : ∀ L ∈ lens, 0 ≤ L) (hq : qs.length = lens.length + 1) :
    SegLenOk lens (fabrikStep root t lens qs) := by
  unfold fabrikStep
  apply segLenOk_reachOut lens _ root hnn
  simp [List.length_tail, reachIn_length, hq]

/-- Helper: the initial IK position list has one more entry than the
chain. -/
theorem ikChainPositions_length (chain : List Bone) (h : chain ≠ []) :
    (ikChainPositions chain).length = chain.length + 1 := by
  cases chain with
  | nil => exact absurd rfl h
  | cons c rest =>
    unfold ikChainPositions
    rw [getLast?_cons_eq]
    simp

/-- C2 (amended): for every chain of at least two bones with nonnegative
bone lengths and at least one iteration, after
`calculate_inverse_kinematics` the distance between each consecutive pair
of solved joint positions (including the final tip point) equals the
corresponding bone's length — except that a consecutive pair may coincide
(distance `0`): the `1e-9` guard maps coincident points onto each other
instead of restoring the bone length, both in the FABRIK passes and in the
stretch pass (see the counterexample). -/
theorem ik_chain_length_preservation (sk : Skeleton) (eid : Int) (tx ty : ℝ)
    (iters : Nat) (tol : ℝ) (hchain : 2 ≤ (sk.get_chain eid).length)
    (hnn : ∀ b ∈ sk.get_chain eid, 0 ≤ b.length) (hiters : 1 ≤ iters) :
    SegLenOk ((sk.get_chain eid).map Bone.length)
      (ikPositions sk eid tx ty iters tol) := by
  have hne : sk.get_chain eid ≠ [] := by
    intro h
    rw [h] at hchain
    simp at hchain
  have hnn' : ∀ L ∈ (sk.get_chain eid).map Bone.length, 0 ≤ L := by
    intro L hL
    obtain ⟨b, hb, rfl⟩ := List.mem_map.mp hL
    exact hnn b hb
  have hplen : (ikChainPositions (sk.get_chain eid)).length =
      ((sk.get_chain eid).map Bone.length).length + 1 := by
    rw [ikChainPositions_length _ hne, List.length_map]
  simp only [ikPositions, ikSolvePositions]
  split_ifs with hfar
  · exact segLenOk_stretch _ _ _ hnn'
  · obtain ⟨qs, hq1, hq2⟩ := fabrikLoop_eq_step _ _ _ _ iters _ hiters hplen
    rw [hq2]
    exact segLenOk_fabrikStep _ _ _ _ hnn' hq1

/-- Helper: when the post-iteration tolerance check passes, the FABRIK loop
breaks and returns that iteration's output. -/
theorem fabrikLoop_break (root t : ℝ × ℝ) (lens : List ℝ) (tol : ℝ) (n : Nat)
    (ps : List (ℝ × ℝ))
    (h : pdist ((fabrikStep root t lens ps).getLastD t) t < tol) :
    fabrikLoop (n + 1) root t lens tol ps = fabrikStep root t lens ps := by
  show (if pdist ((fabrikStep root t lens ps).getLastD t) t < tol then _ else _) = _
  rw [if_pos h]

/-- C2 witness: the two-bone unit chain with an out-of-reach target keeps
both segment lengths. -/
theorem ik_chain_length_preservation_witness :
    2 ≤ (ikStretchSkeleton.get_chain 1).length ∧
      (∀ b ∈ ikStretchSkeleton.get_chain 1, 0 ≤ b.length) ∧ (1 : Nat) ≤ 20 ∧
      SegLenOk ((ikStretchSkeleton.get_chain 1).map Bone.length)
        (ikPositions ikStretchSkeleton 1 5 0 20 (1/100)) := by
  have hchain : ikStretchSkeleton.get_chain 1 =
      [Bone.mk 0 "base" none 1 0 0 0 0 0 1,
       Bone.mk 1 "end" (some 0) 1 0 0 1 0 0 1] := rfl
  have h2 : 2 ≤ (ikStretchSkeleton.get_chain 1).length := by rw [hchain]; norm_num
  have hnn : ∀ b ∈ ikStretchSkeleton.get_chain 1, 0 ≤ b.length := by
    intro b hb
    rw [hchain] at hb
    rcases List.mem_cons.mp hb with rfl | hb2
    · norm_num
    · rcases List.mem_cons.mp hb2 with rfl | hb3
      · norm_num
      · simp at hb3
  exact ⟨h2, hnn, by norm_num,
    ik_chain_length_preservation ikStretchSkeleton 1 5 0 20 (1/100) h2 hnn (by norm_num)⟩

/-- C2 counterexample: on the all-coincident two-bone chain with the target
at the origin, the FABRIK pass leaves all three solved points at the
origin, so the first consecutive distance is `0` although the bone's length
is `1` — segment lengths are not preserved as the claim states. -/
theorem ik_chain_length_preservation_counterexample :
    pdist ((ikPositions ikZeroSkeleton 1 0 0 20 (1/100)).getD 0 (0, 0))
        ((ikPositions ikZeroSkeleton 1 0 0 20 (1/100)).getD 1 (0, 0)) = 0 ∧
      ((ikZeroSkeleton.get_chain 1).map Bone.length).getD 0 0 = (1 : ℝ) ∧
      (0 : ℝ) ≠ 1 := by
  have hchain : ikZeroSkeleton.get_chain 1 =
      [Bone.mk 0 "base" none 1 0 0 0 0 0 1,
       Bone.mk 1 "end" (some 0) 1 0 0 0 0 0 1] := rfl
  have htip1 : (Bone.mk 1 "end" (some 0) 1 0 0 0 0 0 1).tip_x = 1 := by
    norm_num [Bone.tip_x, Real.cos_zero]
  have htip2 : (Bone.mk 1 "end" (some 0) 1 0 0 0 0 0 1).tip_y = 0 := by
    norm_num [Bone.tip_y, Real.sin_zero]
  have hicp : ikChainPositions
      [Bone.mk 0 "base" none 1 0 0 0 0 0 1,
       Bone.mk 1 "end" (some 0) 1 0 0 0 0 0 1] =
      [((0 : ℝ), (0 : ℝ)), (0, 0), (1, 0)] := by
    simp [ikChainPositions, List.getLast?_cons_cons, List.getLast?_singleton,
      htip1, htip2]
  have hstep : fabrikStep ((0 : ℝ), (0 : ℝ)) (0, 0) [1, 1]
      [((0 : ℝ), (0 : ℝ)), (0, 0), (1, 0)] = [(0, 0), (0, 0), (0, 0)] := by
    unfold fabrikStep
    norm_num [reachIn, reachOut, List.dropLast, place_eq_self, pdist_self]
  have hloop : fabrikLoop 20 ((0 : ℝ), (0 : ℝ)) (0, 0) [1, 1] (1/100)
      [((0 : ℝ), (0 : ℝ)), (0, 0), (1, 0)] = [(0, 0), (0, 0), (0, 0)] := by
    have hb : pdist ((fabrikStep ((0 : ℝ), (0 : ℝ)) (0, 0) [1, 1]
        [((0 : ℝ), (0 : ℝ)), (0, 0), (1, 0)]).getLastD (0, 0)) (0, 0) < 1/100 := by
      rw [hstep]
      norm_num [pdist_self]
    calc fabrikLoop 20 ((0 : ℝ), (0 : ℝ)) (0, 0) [1, 1] (1/100)
          [((0 : ℝ), (0 : ℝ)), (0, 0), (1, 0)]
        = fabrikStep ((0 : ℝ), (0 : ℝ)) (0, 0) [1, 1]
          [((0 : ℝ), (0 : ℝ)), (0, 0), (1, 0)] :=
          fabrikLoop_break (0, 0) (0, 0) [1, 1] (1/100) 19 _ hb
      _ = [(0, 0), (0, 0), (0, 0)] := hstep
  have hpos : ikPositions ikZeroSkeleton 1 0 0 20 (1/100) =
      [((0 : ℝ), (0 : ℝ)), (0, 0), (0, 0)] := by
    simp only [ikPositions]
    rw [hchain, hicp]
    have hmap : (List.map Bone.length
        [Bone.mk 0 "base" none 1 0 0 0 0 0 1,
         Bone.mk 1 "end" (some 0) 1 0 0 0 0 0 1]) = [(1 : ℝ), 1] := rfl
    rw [hmap]
    simp only [ikSolvePositions]
    rw [if_neg (by norm_num [pdist_self])]
    simpa using hloop
  rw [hpos, hchain]
  norm_num [pdist_self]

/-- Helper: arc-length zero is the root itself. -/
theorem ptAlong_zero (root t : ℝ × ℝ) : ptAlong root t 0 = root := by
  simp [ptAlong]

/-- Helper: arc length equal to the chord length reaches the target. -/
theorem ptAlong_dist_target (root t : ℝ × ℝ) (hd : 0 < pdist root t) :
    ptAlong root t (pdist root t) = t := by
  unfold ptAlong
  rw [div_self (ne_of_gt hd), Prod.ext_iff]
  constructor <;> · simp only; ring

/-- Helper: distances along the ray are differences of arc lengths. -/
theorem pdist_ptAlong (root t : ℝ × ℝ) (hd : 0 < pdist root t) (s1 s2 : ℝ) :
    pdist (ptAlong root t s1) (ptAlong root t s2) = |s2 - s1| := by
  have key : pdist (ptAlong root t s1) (ptAlong root t s2) =
      Real.sqrt (((s2 - s1) / pdist root t * (t.1 - root.1)) ^ 2 +
        ((s2 - s1) / pdist root t * (t.2 - root.2)) ^ 2) := by
    simp only [pdist, ptAlong]
    congr 1
    ring
  rw [key, sqrt_sq_scale]
  have h2 : Real.sqrt ((t.1 - root.1) ^ 2 + (t.2 - root.2) ^ 2) = pdist root t := rfl
  rw [h2, abs_div, abs_of_pos hd, div_mul_cancel₀ _ (ne_of_gt hd)]

/-- Helper: distance from a ray point to the target is the remaining arc
length. -/
theorem pdist_ptAlong_target (root t : ℝ × ℝ) (hd : 0 < pdist root t)
    (s : ℝ) (hs : s ≤ pdist root t) :
    pdist (ptAlong root t s) t = pdist root t - s := by
  have h1 := pdist_ptAlong root t hd s (pdist root t)
  rw [ptAlong_dist_target root t hd] at h1
  rw [h1, abs_of_nonneg (by linarith)]

/-- Helper: a `place` step from a point on the ray strictly before the
target moves along the same ray by the bone's length. -/
theorem place_on_ray (root t : ℝ × ℝ) (hd : 0 < pdist root t) (s len : ℝ)
    (hs : s < pdist root t) :
    place (ptAlong root t s) t len = ptAlong root t (s + len) := by
  have hdt : pdist (ptAlong root t s) t = pdist root t - s :=
    pdist_ptAlong_target root t hd s (le_of_lt hs)
  have hpos : 0 < pdist (ptAlong root t s) t := by rw [hdt]; linarith
  rw [place_formula _ _ _ hpos, hdt]
  have hd0 : pdist root t ≠ 0 := ne_of_gt hd
  have hds : pdist root t - s ≠ 0 := by intro h0; rw [sub_eq_zero] at h0; rw [← h0] at hs; exact lt_irrefl _ hs
  rw [Prod.ext_iff]
  constructor <;>
  · simp only [ptAlong]
    field_simp
    ring

/-- Helper: the stretch pass starting on the ray produces exactly the
closed-form ray points, when the accumulated lengths stay short of the
chord. -/
theorem stretchPass_eq_rayPoints (root t : ℝ × ℝ) (hd : 0 < pdist root t) :
    ∀ (lens : List ℝ) (s : ℝ), 0 ≤ s → (∀ L ∈ lens, 0 ≤ L) →
    s + lens.sum < pdist root t →
    stretchPass t (ptAlong root t s) lens = rayPoints root t s lens := by
  intro lens
  induction lens with
  | nil => intro s _ _ _; rfl
  | cons len rest ih =>
    intro s hs hnn hlt
    have hlen : 0 ≤ len := hnn len (List.mem_cons_self _ _)
    have hrest : ∀ L ∈ rest, 0 ≤ L := fun L hL => hnn L (List.mem_cons_of_mem _ hL)
    have hsum : 0 ≤ rest.sum := List.sum_nonneg hrest
    rw [List.sum_cons] at hlt
    have hslt : s < pdist root t := by linarith
    have hq : place (ptAlong root t s) t len = ptAlong root t (s + len) :=
      place_on_ray root t hd s len hslt
    show place (ptAlong root t s) t len ::
        stretchPass t (place (ptAlong root t s) t len) rest = _
    rw [hq]
    show _ = ptAlong root t (s + len) :: rayPoints root t (s + len) rest
    rw [ih (s + len) (by linarith) hrest (by linarith)]

/-- Helper: length of the closed-form ray point list. -/
theorem rayPoints_length (root t : ℝ × ℝ) :
    ∀ (lens : List ℝ) (s : ℝ), (rayPoints root t s lens).length = lens.length := by
  intro lens
  induction lens with
  | nil => intro s; rfl
  | cons len rest ih => intro s; simp [rayPoints, ih]

/-- Helper: indexing into the closed-form ray point list gives the point at
the accumulated prefix length. -/
theorem rayPoints_getD (root t : ℝ × ℝ) :
    ∀ (lens : List ℝ) (s : ℝ) (i : Nat), i < lens.length →
    (rayPoints root t s lens).getD i (0, 0) =
      ptAlong root t (s + (lens.take (i + 1)).sum) := by
  intro lens
  induction lens with
  | nil => intro s i h; simp at h
  | cons len rest ih =>
    intro s i h
    cases i with
    | zero =>
      show (ptAlong root t (s + len) :: rayPoints root t (s + len) rest).getD 0 (0, 0) = _
      simp
    | succ i =>
      show (ptAlong root t (s + len) :: rayPoints root t (s + len) rest).getD (i + 1) (0, 0) = _
      rw [List.getD_cons_succ, ih (s + len) i (by simpa using h)]
      congr 1
      rw [List.take_succ_cons, List.sum_cons]
      ring

/-- Helper: the prefix sum grows by the indexed element. -/
theorem take_succ_sum_getD : ∀ (l : List ℝ) (i : Nat), i < l.length →
    (l.take (i + 1)).sum = (l.take i).sum + l.getD i 0 := by
  intro l
  induction l with
  | nil => intro i h; simp at h
  | cons x xs ih =>
    intro i h
    cases i with
    | zero => simp
    | succ i =>
      rw [List.take_succ_cons, List.sum_cons, List.take_succ_cons, List.sum_cons,
        List.getD_cons_succ, ih i (by simpa using h)]
      ring

/-- Helper: invariants of the parent-link walk: every produced bone is the
skeleton's (first) bone of its id, the produced ids are duplicate-free, and
none of them is in the visited set. -/
theorem chainWalk_inv (sk : Skeleton) : ∀ (fuel : Nat) (bidOpt : Option Int)
    (visited : List Int),
    (∀ c ∈ chainWalk sk fuel bidOpt visited, sk.get_bone c.id = some c) ∧
      ((chainWalk sk fuel bidOpt visited).map Bone.id).Nodup ∧
      (∀ c ∈ chainWalk sk fuel bidOpt visited, c.id ∉ visited) := by
  intro fuel
  induction fuel with
  | zero =>
    intro bidOpt visited
    refine ⟨?_, ?_, ?_⟩ <;> simp [chainWalk]
  | succ fuel ih =>
    intro bidOpt visited
    cases bidOpt with
    | none => refine ⟨?_, ?_, ?_⟩ <;> simp [chainWalk]
    | some bid =>
      by_cases hv : bid ∈ visited
      · refine ⟨?_, ?_, ?_⟩ <;> simp [chainWalk, hv]
      · cases hb : sk.get_bone bid with
        | none => refine ⟨?_, ?_, ?_⟩ <;> simp [chainWalk, hv, hb]
        | some bone =>
          have hid : bone.id = bid := by
            have := List.find?_some hb
            exact beq_iff_eq.mp this
          have hwalk : chainWalk sk (fuel + 1) (some bid) visited =
              bone :: chainWalk sk fuel bone.parent_id (bid :: visited) := by
            show (if visited.contains bid then [] else _) = _
            rw [if_neg (by simpa using hv)]
            rw [hb]
          have hrec := ih bone.parent_id (bid :: visited)
          rw [hwalk]
          refine ⟨?_, ?_, ?_⟩
          · intro c hc
            rcases List.mem_cons.mp hc with rfl | hc2
            · rw [hid]; exact hb
            · exact hrec.1 c hc2
          · rw [List.map_cons, List.nodup_cons]
            constructor
            · intro hmem
              obtain ⟨c, hc, hcid⟩ := List.mem_map.mp hmem
              have := hrec.2.2 c hc
              rw [hcid, hid] at this
              exact this (List.mem_cons_self _ _)
            · exact hrec.2.1
          · intro c hc
            rcases List.mem_cons.mp hc with rfl | hc2
            · rw [hid]
              exact hv
            · intro hmem
              exact hrec.2.2 c hc2 (List.mem_cons_of_mem _ hmem)

/-- Helper: the chain produced by `get_chain` has duplicate-free bone
ids. -/
theorem get_chain_nodup (sk : Skeleton) (eid : Int) :
    ((sk.get_chain eid).map Bone.id).Nodup := by
  unfold Skeleton.get_chain
  rw [List.map_reverse]
  exact List.nodup_reverse.mpr (chainWalk_inv sk _ _ _).2.1

/-- Helper: each chain bone is exactly the skeleton's first bone of its
id. -/
theorem get_chain_find (sk : Skeleton) (eid : Int) :
    ∀ c ∈ sk.get_chain eid, sk.bones.find? (fun b => b.id == c.id) = some c := by
  intro c hc
  unfold Skeleton.get_chain at hc
  rw [List.mem_reverse] at hc
  exact (chainWalk_inv sk _ _ _).1 c hc

/-- Helper: looking up an id after an id-preserving in-place update: the
updated id yields the mapped first match, any other id is unaffected. -/
theorem updateBone_find? (bid : Int) (f : Bone → Bone)
    (hf : ∀ b, (f b).id = b.id) : ∀ (bs : List Bone) (j : Int),
    (updateBone bs bid f).find? (fun b => b.id == j) =
      if j = bid then (bs.find? (fun b => b.id == bid)).map f
      else bs.find? (fun b => b.id == j) := by
  intro bs
  induction bs with
  | nil =>
    intro j
    simp [updateBone]
  | cons b rest ih =>
    intro j
    show (if b.id == bid then f b :: rest else b :: updateBone rest bid f).find?
        (fun x => x.id == j) = _
    by_cases hb : b.id = bid
    · rw [if_pos (beq_iff_eq.mpr hb)]
      by_cases hj : j = bid
      · subst hj
        rw [List.find?_cons_of_pos _ (by rw [beq_iff_eq, hf, hb]),
          List.find?_cons_of_pos _ (by rw [beq_iff_eq, hb]), if_pos rfl]
        rfl
      · rw [if_neg hj]
        rw [List.find?_cons_of_neg _ (by rw [beq_iff_eq, hf, hb]; exact fun h => hj h.symm),
          List.find?_cons_of_neg _ (by rw [beq_iff_eq, hb]; exact fun h => hj h.symm)]
    · rw [if_neg (by rw [beq_iff_eq]; exact hb)]
      by_cases hbj : b.id = j
      · rw [List.find?_cons_of_pos _ (by rw [beq_iff_eq]; exact hbj)]
        by_cases hj : j = bid
        · exact absurd (hbj.trans hj) hb
        · rw [if_neg hj, List.find?_cons_of_pos _ (by rw [beq_iff_eq]; exact hbj)]
      · rw [List.find?_cons_of_neg _ (by rw [beq_iff_eq]; exact hbj)]
        rw [ih j]
        by_cases hj : j = bid
        · rw [if_pos hj, if_pos hj,
            List.find?_cons_of_neg _ (by rw [beq_iff_eq]; exact hb)]
        · rw [if_neg hj, if_neg hj,
            List.find?_cons_of_neg _ (by rw [beq_iff_eq]; exact hbj)]

/-- Helper: the IK write-back loop leaves bones outside the chain's ids
untouched (as observed through id lookup). -/
theorem ikApply_find?_other : ∀ (chain : List Bone) (ps : List (ℝ × ℝ))
    (bs : List Bone) (j : Int), (∀ c ∈ chain, c.id ≠ j) →
    (ikApply bs chain ps).find? (fun b => b.id == j) =
      bs.find? (fun b => b.id == j) := by
  intro chain
  induction chain with
  | nil => intro ps bs j _; rfl
  | cons bone rest ih =>
    intro ps bs j hj
    cases ps with
    | nil => rfl
    | cons p ps' =>
      cases ps' with
      | nil => rfl
      | cons q ps'' =>
        simp only [ikApply]
        rw [ih (q :: ps'') _ j (fun c hc => hj c (List.mem_cons_of_mem _ hc))]
        rw [updateBone_find? bone.id (ikWriteBack bs bone p q) (fun b => rfl) bs j,
          if_neg (fun h => hj bone (List.mem_cons_self _ _) h.symm)]

/-- Helper: after the IK write-back loop, each chain bone (all ids
distinct, each the first of its id in the bone store) carries the solved
segment: world position from the segment's start point, world angle from
`atan2` over the segment, length untouched. -/
theorem ikApply_world : ∀ (chain : List Bone) (ps : List (ℝ × ℝ)) (bs : List Bone),
    (chain.map Bone.id).Nodup →
    (∀ c ∈ chain, bs.find? (fun b => b.id == c.id) = some c) →
    ps.length = chain.length + 1 →
    ∀ i, i < chain.length →
    ∃ b', (ikApply bs chain ps).find?
        (fun b => b.id == (chain.getD i default).id) = some b' ∧
      b'.length = (chain.getD i default).length ∧
      b'.world_x = (ps.getD i (0, 0)).1 ∧ b'.world_y = (ps.getD i (0, 0)).2 ∧
      b'.world_angle = atan2 ((ps.getD (i + 1) (0, 0)).2 - (ps.getD i (0, 0)).2)
        ((ps.getD (i + 1) (0, 0)).1 - (ps.getD i (0, 0)).1) := by
  intro chain
  induction chain with
  | nil => intro ps bs _ _ _ i hi; simp at hi
  | cons bone rest ih =>
    intro ps bs hnodup hfind hlen i hi
    obtain ⟨p, q, ps'', rfl⟩ : ∃ p q ps'', ps = p :: q :: ps'' := by
      cases ps with
      | nil => simp at hlen
      | cons p ps' =>
        cases ps' with
        | nil => simp at hlen
        | cons q ps'' => exact ⟨p, q, ps'', rfl⟩
    have hhead : bone.id ∉ rest.map Bone.id := by
      rw [List.map_cons, List.nodup_cons] at hnodup
      exact hnodup.1
    cases i with
    | zero =>
      simp only [ikApply, List.getD_cons_zero, List.getD_cons_succ]
      rw [ikApply_find?_other rest (q :: ps'') _ bone.id
        (fun c hc hcid => hhead (List.mem_map.mpr ⟨c, hc, hcid⟩))]
      rw [updateBone_find? bone.id (ikWriteBack bs bone p q) (fun b => rfl) bs bone.id,
        if_pos rfl, hfind bone (List.mem_cons_self _ _)]
      exact ⟨ikWriteBack bs bone p q bone, rfl, rfl, rfl, rfl, rfl⟩
    | succ i =>
      simp only [ikApply, List.getD_cons_succ]
      have hne : ∀ c ∈ rest,
          (updateBone bs bone.id (ikWriteBack bs bone p q)).find?
            (fun b => b.id == c.id) = some c := by
        intro c hc
        rw [updateBone_find? bone.id (ikWriteBack bs bone p q) (fun b => rfl) bs c.id,
          if_neg (fun h => hhead (List.mem_map.mpr ⟨c, hc, h⟩))]
        exact hfind c (List.mem_cons_of_mem _ hc)
      have hnd : (rest.map Bone.id).Nodup := by
        rw [List.map_cons, List.nodup_cons] at hnodup
        exact hnodup.2
      exact ih (q :: ps'') _ hnd hne (by simpa using hlen) i (by simpa using hi)

/-- Helper: a bone whose world pose was solved from a segment `p → q` of
length exactly the bone's (nonnegative) length has its tip at `q`: the
`cos`/`sin` of the segment's `atan2` angle reconstruct the displacement. -/
theorem tip_of_segment (p q : ℝ × ℝ) (len : ℝ) (hlen : 0 ≤ len)
    (hd : pdist p q = len) :
    (p.1 + len * Real.cos (atan2 (q.2 - p.2) (q.1 - p.1)),
     p.2 + len * Real.sin (atan2 (q.2 - p.2) (q.1 - p.1))) = q := by
  rcases eq_or_lt_of_le hlen with heq | hpos
  · have hq : q = p := pdist_eq_zero_iff.mp (by rw [hd, ← heq])
    subst hq
    rw [← heq]
    simp
  · have habs : Complex.abs ⟨q.1 - p.1, q.2 - p.2⟩ = len := by
      rw [Complex.abs_apply, Complex.normSq_mk, ← hd, pdist]
      congr 1
      ring
    have hcz : (⟨q.1 - p.1, q.2 - p.2⟩ : ℂ) ≠ 0 := by
      intro hc
      rw [hc] at habs
      rw [map_zero] at habs
      exact (ne_of_lt hpos) habs
    have hcos : Real.cos (atan2 (q.2 - p.2) (q.1 - p.1)) = (q.1 - p.1) / len := by
      rw [atan2, Complex.cos_arg hcz, habs]
    have hsin : Real.sin (atan2 (q.2 - p.2) (q.1 - p.1)) = (q.2 - p.2) / len := by
      rw [atan2, Complex.sin_arg, habs]
    rw [hcos, hsin, Prod.ext_iff]
    constructor <;>
    · simp only
      rw [mul_div_cancel₀ _ (ne_of_gt hpos)]
      ring

/-- Helper: the last element with default is the element at the last
index. -/
theorem getLastD_eq_getD {β : Type _} : ∀ (l : List β) (dd : β), l ≠ [] →
    l.getLastD dd = l.getD (l.length - 1) dd := by
  intro l
  induction l with
  | nil => intro dd h; exact absurd rfl h
  | cons a rest ih =>
    intro dd _
    cases rest with
    | nil => rfl
    | cons b m =>
      rw [List.getLastD_cons, ih a (by simp)]
      show (b :: m).getD ((b :: m).length - 1) a = (a :: b :: m).getD ((a :: b :: m).length - 1) dd
      have h1 : (a :: b :: m).length - 1 = ((b :: m).length - 1) + 1 := by
        simp
      rw [h1, List.getD_cons_succ]
      have hlt : (b :: m).length - 1 < (b :: m).length := by simp
      rw [List.getD_eq_getElem?_getD, List.getD_eq_getElem?_getD,
        List.getElem?_eq_getElem hlt]
      rfl

/-- Helper: indexing a mapped list below its length ignores defaults. -/
theorem getD_map_of_lt {β γ : Type _} (f : β → γ) (l : List β) (i : Nat)
    (h : i < l.length) (d0 : γ) (d1 : β) :
    (l.map f).getD i d0 = f (l.getD i d1) := by
  rw [List.getD_eq_getElem?_getD, List.getD_eq_getElem?_getD,
    List.getElem?_map, List.getElem?_eq_getElem h]
  rfl

/-- Helper: the head of the initial IK position list is the first chain
bone's world position. -/
theorem ikChainPositions_headD (chain : List Bone) (h : chain ≠ []) :
    (ikChainPositions chain).headD (0, 0) =
      ((chain.headD default).world_x, (chain.headD default).world_y) := by
  cases chain with
  | nil => exact absurd rfl h
  | cons c rest =>
    unfold ikChainPositions
    rw [getLast?_cons_eq]
    rfl

/-- Helper: elements of the length list indexed in range are chain bone
lengths, hence nonnegative under the data-model invariant. -/
theorem lens_getD_nonneg (chain : List Bone) (i : Nat) (hi : i < chain.length)
    (hnn : ∀ b ∈ chain, 0 ≤ b.length) :
    0 ≤ (chain.map Bone.length).getD i 0 := by
  rw [getD_map_of_lt Bone.length chain i hi 0 default]
  apply hnn
  rw [List.getD_eq_getElem?_getD, List.getElem?_eq_getElem hi]
  exact List.getElem_mem hi

/-- Helper: core of the unreachable-target analysis over an abstract chain:
after the stretch pass and the angle write-back, the last chain bone's tip
lies on the ray from the chain root's world position through the target, at
distance exactly the total chain length from the root. -/
theorem ik_stretch_core (chain : List Bone) (bs : List Bone) (tx ty : ℝ)
    (iters : Nat) (tol : ℝ)
    (hne2 : 2 ≤ chain.length)
    (hnodup : (chain.map Bone.id).Nodup)
    (hfindc : ∀ c ∈ chain, bs.find? (fun b => b.id == c.id) = some c)
    (hnn : ∀ b ∈ chain, 0 ≤ b.length)
    (hfar : (chain.map Bone.length).sum <
      pdist ((chain.headD default).world_x, (chain.headD default).world_y)
        (tx, ty)) :
    ∃ b', (ikApply bs chain (ikSolvePositions (ikChainPositions chain)
        (chain.map Bone.length) (tx, ty) iters tol)).find?
        (fun b => b.id == (chain.getLastD default).id) = some b' ∧
      b'.tip_x = (chain.headD default).world_x +
        (chain.map Bone.length).sum /
          pdist ((chain.headD default).world_x, (chain.headD default).world_y)
            (tx, ty) * (tx - (chain.headD default).world_x) ∧
      b'.tip_y = (chain.headD default).world_y +
        (chain.map Bone.length).sum /
          pdist ((chain.headD default).world_x, (chain.headD default).world_y)
            (tx, ty) * (ty - (chain.headD default).world_y) ∧
      pdist ((chain.headD default).world_x, (chain.headD default).world_y)
        (b'.tip_x, b'.tip_y) = (chain.map Bone.length).sum := by
  set root : ℝ × ℝ := ((chain.headD default).world_x, (chain.headD default).world_y)
    with hroot
  set t : ℝ × ℝ := (tx, ty) with ht
  set lens : List ℝ := chain.map Bone.length with hlens
  have hne : chain ≠ [] := by
    intro h
    rw [h] at hne2
    simp at hne2
  have hlensN : lens.length = chain.length := by rw [hlens, List.length_map]
  have hnnl : ∀ L ∈ lens, 0 ≤ L := by
    intro L hL
    rw [hlens] at hL
    obtain ⟨b, hb, rfl⟩ := List.mem_map.mp hL
    exact hnn b hb
  have htot : 0 ≤ lens.sum := List.sum_nonneg hnnl
  have hdpos : 0 < pdist root t := lt_of_le_of_lt htot hfar
  have hsolve : ikSolvePositions (ikChainPositions chain) lens t iters tol =
      root :: stretchPass t root lens := by
    simp only [ikSolvePositions]
    rw [ikChainPositions_headD chain hne, ← hroot]
    rw [if_pos hfar]
  have hray : stretchPass t root lens = rayPoints root t 0 lens := by
    conv_lhs => rw [show root = ptAlong root t 0 from (ptAlong_zero root t).symm]
    exact stretchPass_eq_rayPoints root t hdpos lens 0 (le_refl 0) hnnl
      (by rw [zero_add]; exact hfar)
  obtain ⟨m, hm⟩ : ∃ m, chain.length = m + 2 := ⟨chain.length - 2, by omega⟩
  have hlen2 : lens.length = m + 2 := by rw [hlensN, hm]
  set ps : List (ℝ × ℝ) := root :: rayPoints root t 0 lens with hps
  have hpslen : ps.length = chain.length + 1 := by
    rw [hps, List.length_cons, rayPoints_length, hlensN]
  have hgetN : ps.getD (m + 2) (0, 0) = ptAlong root t lens.sum := by
    rw [hps, List.getD_cons_succ, rayPoints_getD root t lens 0 (m + 1) (by omega),
      zero_add]
    congr 1
    rw [show m + 1 + 1 = lens.length from by omega, List.take_length]
  have hgetN1 : ps.getD (m + 1) (0, 0) = ptAlong root t (lens.take (m + 1)).sum := by
    rw [hps, List.getD_cons_succ, rayPoints_getD root t lens 0 m (by omega),
      zero_add]
  have hlastlen : lens.getD (m + 1) 0 = (chain.getD (m + 1) default).length := by
    rw [hlens]
    exact getD_map_of_lt Bone.length chain (m + 1) (by omega) 0 default
  have hsegnn : 0 ≤ lens.getD (m + 1) 0 := by
    rw [hlens]
    exact lens_getD_nonneg chain (m + 1) (by omega) hnn
  have hseg : pdist (ps.getD (m + 1) (0, 0)) (ps.getD (m + 2) (0, 0)) =
      lens.getD (m + 1) 0 := by
    rw [hgetN, hgetN1, pdist_ptAlong root t hdpos]
    rw [show lens.sum = (lens.take (m + 2)).sum from by
      rw [show m + 2 = lens.length from hlen2.symm, List.take_length]]
    rw [take_succ_sum_getD lens (m + 1) (by omega)]
    rw [show (lens.take (m + 1)).sum + lens.getD (m + 1) 0 - (lens.take (m + 1)).sum
      = lens.getD (m + 1) 0 from by ring]
    exact abs_of_nonneg hsegnn
  obtain ⟨b', hfindb, hblen, hbx, hby, hbang⟩ :=
    ikApply_world chain ps bs hnodup hfindc (by rw [hpslen]) (m + 1) (by omega)
  have hlast_eq : chain.getLastD default = chain.getD (m + 1) default := by
    rw [getLastD_eq_getD chain default hne, hm]
    norm_num
  have htip : (b'.tip_x, b'.tip_y) = ptAlong root t lens.sum := by
    have := tip_of_segment (ps.getD (m + 1) (0, 0)) (ps.getD (m + 2) (0, 0))
      (lens.getD (m + 1) 0) hsegnn hseg
    rw [← hgetN]
    rw [← this]
    unfold Bone.tip_x Bone.tip_y
    rw [hbx, hby, hbang, hblen, ← hlastlen]
  have htip_dist : pdist root (b'.tip_x, b'.tip_y) = lens.sum := by
    rw [htip]
    calc pdist root (ptAlong root t lens.sum)
        = pdist (ptAlong root t 0) (ptAlong root t lens.sum) := by
          rw [ptAlong_zero]
      _ = lens.sum := by
          rw [pdist_ptAlong root t hdpos, sub_zero, abs_of_nonneg htot]
  refine ⟨b', ?_, ?_, ?_, htip_dist⟩
  · rw [hsolve, hray, hlast_eq]
    exact hfindb
  · have := congrArg Prod.fst htip
    simpa [ptAlong, ht] using this
  · have := congrArg Prod.snd htip
    simpa [ptAlong, ht] using this

/-- C1: for a chain of at least two bones (nonnegative lengths), when the
distance from the chain root's world position to the target exceeds the
total chain length, `calculate_inverse_kinematics` leaves the final bone's
tip on the ray from the root position through the target, at distance
exactly the total chain length from the root. -/
theorem ik_unreachable_ray (sk : Skeleton) (eid : Int) (tx ty : ℝ)
    (iters : Nat) (tol : ℝ)
    (hchain : 2 ≤ (sk.get_chain eid).length)
    (hnn : ∀ b ∈ sk.get_chain eid, 0 ≤ b.length)
    (hfar : ((sk.get_chain eid).map Bone.length).sum <
      pdist (((sk.get_chain eid).headD default).world_x,
        ((sk.get_chain eid).headD default).world_y) (tx, ty)) :
    ∃ b', (calculate_inverse_kinematics sk eid tx ty iters tol).1.bones.find?
        (fun b => b.id == ((sk.get_chain eid).getLastD default).id) = some b' ∧
      b'.tip_x = ((sk.get_chain eid).headD default).world_x +
        ((sk.get_chain eid).map Bone.length).sum /
          pdist (((sk.get_chain eid).headD default).world_x,
            ((sk.get_chain eid).headD default).world_y) (tx, ty) *
          (tx - ((sk.get_chain eid).headD default).world_x) ∧
      b'.tip_y = ((sk.get_chain eid).headD default).world_y +
        ((sk.get_chain eid).map Bone.length).sum /
          pdist (((sk.get_chain eid).headD default).world_x,
            ((sk.get_chain eid).headD default).world_y) (tx, ty) *
          (ty - ((sk.get_chain eid).headD default).world_y) ∧
      pdist (((sk.get_chain eid).headD default).world_x,
          ((sk.get_chain eid).headD default).world_y) (b'.tip_x, b'.tip_y) =
        ((sk.get_chain eid).map Bone.length).sum := by
  have hout : (calculate_inverse_kinematics sk eid tx ty iters tol).1.bones =
      ikApply sk.bones (sk.get_chain eid) (ikSolvePositions
        (ikChainPositions (sk.get_chain eid))
        ((sk.get_chain eid).map Bone.length) (tx, ty) iters tol) := by
    simp only [calculate_inverse_kinematics, ikPositions]
    rw [if_neg (not_lt.mpr hchain)]
  rw [hout]
  exact ik_stretch_core (sk.get_chain eid) sk.bones tx ty iters tol
    hchain (get_chain_nodup sk eid) (get_chain_find sk eid) hnn hfar

/-- C1 witness: the concrete two-bone unit chain rooted at the origin with
target `(5, 0)` (distance 5 > total length 2). -/
theorem ik_unreachable_ray_witness :
    (2 ≤ (ikStretchSkeleton.get_chain 1).length ∧
      (∀ b ∈ ikStretchSkeleton.get_chain 1, 0 ≤ b.length) ∧
      ((ikStretchSkeleton.get_chain 1).map Bone.length).sum <
        pdist (((ikStretchSkeleton.get_chain 1).headD default).world_x,
          ((ikStretchSkeleton.get_chain 1).headD default).world_y) (5, 0)) ∧
    ∃ b', (calculate_inverse_kinematics ikStretchSkeleton 1 5 0 20
        (1/100)).1.bones.find?
        (fun b => b.id == ((ikStretchSkeleton.get_chain 1).getLastD default).id) =
        some b' ∧
      b'.tip_x = ((ikStretchSkeleton.get_chain 1).headD default).world_x +
        ((ikStretchSkeleton.get_chain 1).map Bone.length).sum /
          pdist (((ikStretchSkeleton.get_chain 1).headD default).world_x,
            ((ikStretchSkeleton.get_chain 1).headD default).world_y) (5, 0) *
          (5 - ((ikStretchSkeleton.get_chain 1).headD default).world_x) ∧
      b'.tip_y = ((ikStretchSkeleton.get_chain 1).headD default).world_y +
        ((ikStretchSkeleton.get_chain 1).map Bone.length).sum /
          pdist (((ikStretchSkeleton.get_chain 1).headD default).world_x,
            ((ikStretchSkeleton.get_chain 1).headD default).world_y) (5, 0) *
          (0 - ((ikStretchSkeleton.get_chain 1).headD default).world_y) ∧
      pdist (((ikStretchSkeleton.get_chain 1).headD default).world_x,
          ((ikStretchSkeleton.get_chain 1).headD default).world_y)
          (b'.tip_x, b'.tip_y) =
        ((ikStretchSkeleton.get_chain 1).map Bone.length).sum := by
  have hchain : ikStretchSkeleton.get_chain 1 =
      [Bone.mk 0 "base" none 1 0 0 0 0 0 1,
       Bone.mk 1 "end" (some 0) 1 0 0 1 0 0 1] := rfl
  have hp : pdist ((0 : ℝ), (0 : ℝ)) ((5 : ℝ), (0 : ℝ)) = 5 := by
    unfold pdist
    rw [show ((5 : ℝ) - 0) ^ 2 + ((0 : ℝ) - 0) ^ 2 = 5 ^ 2 by norm_num]
    exact Real.sqrt_sq (by norm_num)
  have h2 : 2 ≤ (ikStretchSkeleton.get_chain 1).length := by rw [hchain]; norm_num
  have hnn : ∀ b ∈ ikStretchSkeleton.get_chain 1, 0 ≤ b.length := by
    intro b hb
    rw [hchain] at hb
    rcases List.mem_cons.mp hb with rfl | hb2
    · norm_num
    · rcases List.mem_cons.mp hb2 with rfl | hb3
      · norm_num
      · simp at hb3
  have hfar : ((ikStretchSkeleton.get_chain 1).map Bone.length).sum <
      pdist (((ikStretchSkeleton.get_chain 1).headD default).world_x,
        ((ikStretchSkeleton.get_chain 1).headD default).world_y) (5, 0) := by
    rw [hchain]
    norm_num
    rw [show (0 : ℝ × ℝ) = ((0 : ℝ), (0 : ℝ)) from rfl, hp]
    norm_num
  exact ⟨⟨h2, hnn, hfar⟩,
    ik_unreachable_ray ikStretchSkeleton 1 5 0 20 (1/100) h2 hnn hfar⟩

-- -------------------------------------------------------------------
-- Forward kinematics: static data, hierarchy and the FK traversal
-- -------------------------------------------------------------------

/-- Helper: equal static tuples give equal ids. -/
theorem static_id {b s : Bone} (h : b.static = s.static) : b.id = s.id :=
  congrArg Prod.fst h

/-- Helper: equal static tuples give equal parent ids. -/
theorem static_parent {b s : Bone} (h : b.static = s.static) :
    b.parent_id = s.parent_id :=
  congrArg (fun t => t.2.1) h

/-- Helper: equal static tuples give equal lengths. -/
theorem static_length {b s : Bone} (h : b.static = s.static) :
    b.length = s.length :=
  congrArg (fun t => t.2.2.2.1) h

/-- Helper: equal static tuples give equal rest angles. -/
theorem static_rest {b s : Bone} (h : b.static = s.static) :
    b.rest_angle = s.rest_angle :=
  congrArg (fun t => t.2.2.2.2.1) h

/-- Helper: equal static tuples give equal current angles. -/
theorem static_current {b s : Bone} (h : b.static = s.static) :
    b.current_angle = s.current_angle :=
  congrArg (fun t => t.2.2.2.2.2.1) h

/-- Helper: in a store with no duplicate ids, two member bones with the
same id are the same bone. -/
theorem mem_id_unique {S : List Bone} (hnd : (S.map Bone.id).Nodup)
    {b c : Bone} (hb : b ∈ S) (hc : c ∈ S) (h : b.id = c.id) : b = c :=
  List.inj_on_of_nodup_map hnd hb hc h

/-- Helper: in a store with no duplicate ids, looking up a member bone's id
finds that bone. -/
theorem find?_nodup_mem : ∀ {S : List Bone}, (S.map Bone.id).Nodup →
    ∀ {c : Bone}, c ∈ S → S.find? (fun b => b.id == c.id) = some c := by
  intro S
  induction S with
  | nil => intro _ c hc; exact absurd hc (List.not_mem_nil c)
  | cons b rest ih =>
    intro hnd c hc
    rcases List.mem_cons.mp hc with hbc | hcr
    · subst hbc
      rw [List.find?_cons_of_pos _ (by rw [beq_iff_eq])]
    · have hnd2 : b.id ∉ rest.map Bone.id ∧ (rest.map Bone.id).Nodup :=
        List.nodup_cons.mp hnd
      have hne : ¬ b.id = c.id := fun h =>
        hnd2.1 (by rw [h]; exact List.mem_map_of_mem Bone.id hcr)
      rw [List.find?_cons_of_neg _ (by rw [beq_iff_eq]; exact hne)]
      exact ih hnd2.2 hcr

/-- Helper: lookups through stores with equal static data agree up to the
static projection. -/
theorem find?_static_congr : ∀ (bs S : List Bone),
    bs.map Bone.static = S.map Bone.static → ∀ (i : Int),
    (bs.find? (fun b => b.id == i)).map Bone.static =
      (S.find? (fun b => b.id == i)).map Bone.static := by
  intro bs
  induction bs with
  | nil =>
    intro S h i
    rw [List.map_eq_nil_iff.mp h.symm]
  | cons b bs ih =>
    intro S h i
    cases S with
    | nil => exact absurd h (by simp)
    | cons s S =>
      simp only [List.map_cons, List.cons.injEq] at h
      have hid : b.id = s.id := static_id h.1
      by_cases hi : b.id = i
      · rw [List.find?_cons_of_pos _ (by rw [beq_iff_eq]; exact hi),
          List.find?_cons_of_pos _ (by rw [beq_iff_eq, ← hid]; exact hi)]
        simpa using h.1
      · rw [List.find?_cons_of_neg _ (by rw [beq_iff_eq]; exact hi),
          List.find?_cons_of_neg _ (by rw [beq_iff_eq, ← hid]; exact hi)]
        exact ih S h.2 i

/-- Helper: the child-id list depends only on static data. -/
theorem childIdsOf_congr : ∀ (bs S : List Bone),
    bs.map Bone.static = S.map Bone.static → ∀ (i : Int),
    childIdsOf bs i = childIdsOf S i := by
  intro bs
  induction bs with
  | nil =>
    intro S h i
    rw [List.map_eq_nil_iff.mp h.symm]
  | cons b bs ih =>
    intro S h i
    cases S with
    | nil => exact absurd h (by simp)
    | cons s S =>
      simp only [List.map_cons, List.cons.injEq] at h
      have hpar : b.parent_id = s.parent_id := static_parent h.1
      have hid : b.id = s.id := static_id h.1
      show ((b :: bs).filter (fun x => x.parent_id == some i)).map Bone.id =
        ((s :: S).filter (fun x => x.parent_id == some i)).map Bone.id
      rw [List.filter_cons, List.filter_cons]
      by_cases hc : b.parent_id = some i
      · rw [if_pos (by rw [beq_iff_eq]; exact hc),
          if_pos (by rw [beq_iff_eq, ← hpar]; exact hc)]
        simp only [List.map_cons, hid]
        rw [show (bs.filter (fun x => x.parent_id == some i)).map Bone.id =
          childIdsOf bs i from rfl, show (S.filter (fun x => x.parent_id == some i)).map
          Bone.id = childIdsOf S i from rfl, ih S h.2 i]
      · rw [if_neg (by rw [beq_iff_eq]; exact hc),
          if_neg (by rw [beq_iff_eq, ← hpar]; exact hc)]
        exact ih S h.2 i

/-- Helper: updates preserving static data preserve the store's static map. -/
theorem updateBone_map_static (bid : Int) (f : Bone → Bone)
    (hf : ∀ b, (f b).static = b.static) : ∀ (bs : List Bone),
    (updateBone bs bid f).map Bone.static = bs.map Bone.static := by
  intro bs
  induction bs with
  | nil => rfl
  | cons b rest ih =>
    show ((if b.id == bid then f b :: rest else b :: updateBone rest bid f).map
      Bone.static) = _
    by_cases hb : b.id = bid
    · rw [if_pos (beq_iff_eq.mpr hb)]
      simp only [List.map_cons, hf b]
    · rw [if_neg (by rw [beq_iff_eq]; exact hb)]
      simp only [List.map_cons, ih]

/-- Helper: the FK world-transform assignment keeps static data. -/
theorem fkUpdate_static (px py wang : ℝ) (b : Bone) :
    (fkUpdate px py wang b).static = b.static := rfl

/-- Helper: folding a property-preserving step preserves the property. -/
theorem foldl_preserve {σ ι : Type _} (f : σ → ι → σ) (P : σ → Prop)
    (hstep : ∀ s i, P s → P (f s i)) : ∀ (l : List ι) (s : σ), P s → P (l.foldl f s) := by
  intro l
  induction l with
  | nil => intro s hs; exact hs
  | cons i rest ih => intro s hs; exact ih _ (hstep s i hs)

/-- Helper: the FK traversal never changes any bone's static data. -/
theorem fkProcess_map_static : ∀ (fuel : Nat) (bs : List Bone) (bid : Int)
    (px py pang : ℝ),
    (fkProcess fuel bs bid px py pang).map Bone.static = bs.map Bone.static := by
  intro fuel
  induction fuel with
  | zero => intro bs bid px py pang; rfl
  | succ fuel ih =>
    intro bs bid px py pang
    simp only [fkProcess]
    cases hf : bs.find? (fun b => b.id == bid) with
    | none => rfl
    | some bone =>
      have hstep : ∀ (acc : List Bone) (cid : Int),
          acc.map Bone.static = bs.map Bone.static →
          (match acc.find? (fun (b : Bone) => b.id == bid) with
            | none => acc
            | some bcur => fkProcess fuel acc cid bcur.tip_x bcur.tip_y
                bcur.world_angle).map Bone.static = bs.map Bone.static := by
        intro acc cid hacc
        cases acc.find? (fun (b : Bone) => b.id == bid) with
        | none => exact hacc
        | some bcur => exact (ih acc cid bcur.tip_x bcur.tip_y bcur.world_angle).trans hacc
      exact foldl_preserve _
        (fun acc : List Bone => acc.map Bone.static = bs.map Bone.static)
        hstep _ _ (updateBone_map_static bid
          (fkUpdate px py (pang + bone.rest_angle + bone.current_angle))
          (fkUpdate_static px py (pang + bone.rest_angle + bone.current_angle)) bs)

/-- Helper: fuel bounds step down across one descent step. -/
theorem shallow_step {S : List Bone} {n : Nat} {bid c : Int}
    (h : Shallow S (n + 1) bid) (hd : DescStep S bid c) : Shallow S n c := by
  obtain ⟨b, hb, hid, hpar⟩ := hd
  have h' : ∀ x ∈ S, x.parent_id = some bid → Shallow S n x.id := h
  exact hid ▸ h' b hb hpar

/-- Helper: a shallow id admits no descent cycle through itself. -/
theorem shallow_no_cycle {S : List Bone} : ∀ (n : Nat) (d : Int), Shallow S n d →
    Relation.TransGen (DescStep S) d d → False := by
  intro n
  induction n with
  | zero => intro d h _; exact h
  | succ n ih =>
    intro d h hcyc
    obtain ⟨e, hde, hed⟩ := Relation.TransGen.head'_iff.mp hcyc
    exact ih e (shallow_step h hde) (Relation.TransGen.tail' hed hde)

/-- Helper: shallowness propagates down descent chains. -/
theorem shallow_descend {S : List Bone} {n : Nat} {bid d : Int}
    (hsh : Shallow S n bid) (h : Relation.ReflTransGen (DescStep S) bid d) :
    ∃ k, Shallow S k d := by
  induction h with
  | refl => exact ⟨n, hsh⟩
  | tail hmid hstep ih =>
    obtain ⟨k, hk⟩ := ih
    cases k with
    | zero => exact absurd hk (fun h => h)
    | succ k => exact ⟨k, shallow_step hk hstep⟩

/-- Helper: below a shallow id no descendant lies on a descent cycle. -/
theorem shallow_no_cycle_below {S : List Bone} {n : Nat} {bid d : Int}
    (hsh : Shallow S n bid) (hr : Relation.ReflTransGen (DescStep S) bid d) :
    ¬ Relation.TransGen (DescStep S) d d := by
  intro hc
  obtain ⟨k, hk⟩ := shallow_descend hsh hr
  exact shallow_no_cycle k d hk hc

/-- Helper: with unique ids, a child id determines its parent id. -/
theorem step_parent_unique {S : List Bone} (hnd : (S.map Bone.id).Nodup)
    {m m' c : Int} (h : DescStep S m c) (h' : DescStep S m' c) : m = m' := by
  obtain ⟨b, hb, hbid, hbpar⟩ := h
  obtain ⟨b', hb', hbid', hbpar'⟩ := h'
  have hbb : b = b' := mem_id_unique hnd hb hb' (hbid.trans hbid'.symm)
  have : some m = some m' := hbpar.symm.trans (hbb ▸ hbpar')
  exact Option.some.inj this

/-- Helper: two ancestors of a common id are comparable in the descent
order (the hierarchy is a forest when ids are unique). -/
theorem desc_meet {S : List Bone} (hnd : (S.map Bone.id).Nodup) {a j : Int}
    (hA : Relation.ReflTransGen (DescStep S) a j) : ∀ {b : Int},
    Relation.ReflTransGen (DescStep S) b j →
    Relation.ReflTransGen (DescStep S) a b ∨ Relation.ReflTransGen (DescStep S) b a := by
  induction hA with
  | refl => intro b hB; exact Or.inr hB
  | tail hmid hstep ih =>
    intro b hB
    rcases Relation.ReflTransGen.cases_tail hB with heq | ⟨m', hBm, hstep'⟩
    · subst heq
      exact Or.inl (hmid.tail hstep)
    · have hmm : _ = m' := step_parent_unique hnd hstep hstep'
      exact ih (hmm.symm ▸ hBm)

/-- Helper: a child of a shallow id is never an ancestor of that id. -/
theorem child_no_ancestor {S : List Bone} {n : Nat} {bid c : Int}
    (hsh : Shallow S n bid) (hd : DescStep S bid c) :
    ¬ Relation.ReflTransGen (DescStep S) c bid := by
  intro hr
  exact shallow_no_cycle n bid hsh (Relation.TransGen.head' hd hr)

/-- Helper: distinct children of one shallow id have disjoint descendant
sets. -/
theorem children_disjoint {S : List Bone} (hnd : (S.map Bone.id).Nodup)
    {n : Nat} {bid c1 c2 j : Int} (hsh : Shallow S n bid)
    (hd1 : DescStep S bid c1) (hd2 : DescStep S bid c2) (hne : c1 ≠ c2)
    (h1 : Relation.ReflTransGen (DescStep S) c1 j)
    (h2 : Relation.ReflTransGen (DescStep S) c2 j) : False := by
  rcases desc_meet hnd h1 h2 with hm | hm
  · rcases (Relation.reflTransGen_iff_eq_or_transGen.mp hm) with heq | ht
    · exact hne heq.symm
    · obtain ⟨m, hc1m, hmc2⟩ := Relation.TransGen.tail'_iff.mp ht
      have hmbid : m = bid := step_parent_unique hnd hmc2 hd2
      exact child_no_ancestor hsh hd1 (hmbid ▸ hc1m)
  · rcases (Relation.reflTransGen_iff_eq_or_transGen.mp hm) with heq | ht
    · exact hne heq
    · obtain ⟨m, hc2m, hmc1⟩ := Relation.TransGen.tail'_iff.mp ht
      have hmbid : m = bid := step_parent_unique hnd hmc1 hd1
      exact child_no_ancestor hsh hd2 (hmbid ▸ hc2m)

/-- Helper: reachable bones are in the store. -/
theorem reach_mem {sk : Skeleton} {b : Bone} (h : ReachableBone sk b) :
    b ∈ sk.bones := by
  cases h with
  | root b hb _ => exact hb
  | child p b _ hb _ => exact hb

/-- Helper: no reachable bone's id lies on a descent cycle. -/
theorem reach_no_cycle {sk : Skeleton} (hnd : (sk.bones.map Bone.id).Nodup)
    {b : Bone} (h : ReachableBone sk b) :
    ¬ Relation.TransGen (DescStep sk.bones) b.id b.id := by
  induction h with
  | root b hb hpar =>
    intro hcyc
    obtain ⟨m, _, hstep⟩ := Relation.TransGen.tail'_iff.mp hcyc
    obtain ⟨x, hx, hxid, hxpar⟩ := hstep
    have hxb : x = b := mem_id_unique hnd hx hb hxid
    rw [hxb, hpar] at hxpar
    exact Option.noConfusion hxpar
  | child p b hp hb hpar ihp =>
    intro hcyc
    obtain ⟨m, hbm, hstep⟩ := Relation.TransGen.tail'_iff.mp hcyc
    obtain ⟨x, hx, hxid, hxpar⟩ := hstep
    have hxb : x = b := mem_id_unique hnd hx hb hxid
    rw [hxb, hpar] at hxpar
    have hm : m = p.id := (Option.some.inj hxpar).symm
    exact ihp (Relation.TransGen.head' ⟨b, hb, rfl, hpar⟩ (hm ▸ hbm))

/-- Helper: descendants of a reachable bone's id carry reachable bones. -/
theorem reach_descendants {sk : Skeleton} {b : Bone} (h : ReachableBone sk b)
    {d : Int} (hr : Relation.ReflTransGen (DescStep sk.bones) b.id d) :
    ∃ bd, ReachableBone sk bd ∧ bd.id = d := by
  induction hr with
  | refl => exact ⟨b, h, rfl⟩
  | tail hmid hstep ih =>
    obtain ⟨bm, hbm, hbmid⟩ := ih
    obtain ⟨x, hx, hxid, hxpar⟩ := hstep
    exact ⟨x, ReachableBone.child bm x hbm hx (by rw [hxpar, hbmid]), hxid⟩

/-- Helper: below a reachable bone no descendant id lies on a cycle. -/
theorem reach_acyclic_below {sk : Skeleton} (hnd : (sk.bones.map Bone.id).Nodup)
    {b : Bone} (h : ReachableBone sk b) {d : Int}
    (hr : Relation.ReflTransGen (DescStep sk.bones) b.id d) :
    ¬ Relation.TransGen (DescStep sk.bones) d d := by
  obtain ⟨bd, hbd, hbdid⟩ := reach_descendants h hr
  exact hbdid ▸ reach_no_cycle hnd hbd

/-- Helper: a list's member set has at most the list's length many
elements. -/
theorem ncard_list_set_le : ∀ (S : List Bone),
    ({x : Bone | x ∈ S}).ncard ≤ S.length := by
  intro S
  induction S with
  | nil => simp
  | cons b rest ih =>
    have hins : {x : Bone | x ∈ b :: rest} = insert b {x : Bone | x ∈ rest} := by
      ext x; simp
    rw [hins]
    calc (insert b {x : Bone | x ∈ rest}).ncard
        ≤ {x : Bone | x ∈ rest}.ncard + 1 := Set.ncard_insert_le b _
      _ ≤ rest.length + 1 := by omega
      _ = (b :: rest).length := by simp

/-- Helper: an id with a bone whose descendants are all cycle-free is
shallow, with fuel one more than its descendant count. -/
theorem shallow_of_ncard {S : List Bone} :
    ∀ (n : Nat) (bid : Int), (∃ b ∈ S, b.id = bid) →
    (∀ d, Relation.ReflTransGen (DescStep S) bid d →
      ¬ Relation.TransGen (DescStep S) d d) →
    ({x : Bone | x ∈ S ∧ Relation.ReflTransGen (DescStep S) bid x.id}).ncard ≤ n →
    Shallow S (n + 1) bid := by
  intro n
  induction n with
  | zero =>
    intro bid _ _ hcard
    show ∀ c ∈ S, c.parent_id = some bid → Shallow S 0 c.id
    intro c hc hpar
    exfalso
    have hfin : ({x : Bone | x ∈ S ∧ Relation.ReflTransGen (DescStep S) bid x.id}).Finite :=
      (S.finite_toSet).subset (fun x hx => hx.1)
    have hcmem : c ∈ {x : Bone | x ∈ S ∧ Relation.ReflTransGen (DescStep S) bid x.id} :=
      ⟨hc, Relation.ReflTransGen.single ⟨c, hc, rfl, hpar⟩⟩
    have hpos : 0 < ({x : Bone | x ∈ S ∧
        Relation.ReflTransGen (DescStep S) bid x.id}).ncard :=
      (Set.ncard_pos hfin).mpr ⟨c, hcmem⟩
    omega
  | succ n ih =>
    intro bid hbone hacyc hcard
    show ∀ c ∈ S, c.parent_id = some bid → Shallow S (n + 1) c.id
    intro c hc hpar
    have hdstep : DescStep S bid c.id := ⟨c, hc, rfl, hpar⟩
    apply ih c.id ⟨c, hc, rfl⟩
    · intro d hd
      exact hacyc d (Relation.ReflTransGen.head hdstep hd)
    · obtain ⟨b0, hb0, hb0id⟩ := hbone
      have hfin : ({x : Bone | x ∈ S ∧
          Relation.ReflTransGen (DescStep S) bid x.id}).Finite :=
        (S.finite_toSet).subset (fun x hx => hx.1)
      have hsub : {x : Bone | x ∈ S ∧ Relation.ReflTransGen (DescStep S) c.id x.id} ⊆
          {x : Bone | x ∈ S ∧ Relation.ReflTransGen (DescStep S) bid x.id} :=
        fun x hx => ⟨hx.1, Relation.ReflTransGen.head hdstep hx.2⟩
    -- the bone of `bid` itself witnesses strictness
      have hb0in : b0 ∈ {x : Bone | x ∈ S ∧
          Relation.ReflTransGen (DescStep S) bid x.id} :=
        ⟨hb0, by rw [hb0id]⟩
      have hb0notin : b0 ∉ {x : Bone | x ∈ S ∧
          Relation.ReflTransGen (DescStep S) c.id x.id} := by
        rintro ⟨-, hr⟩
        rw [hb0id] at hr
        exact hacyc bid Relation.ReflTransGen.refl (Relation.TransGen.head' hdstep hr)
      have hss : {x : Bone | x ∈ S ∧ Relation.ReflTransGen (DescStep S) c.id x.id} ⊂
          {x : Bone | x ∈ S ∧ Relation.ReflTransGen (DescStep S) bid x.id} :=
        ⟨hsub, fun hsup => hb0notin (hsup hb0in)⟩
      have hlt := Set.ncard_lt_ncard hss hfin
      omega

/-- Helper: every reachable bone's id is shallow with fuel
`bones.length + 1`, the fuel used by the FK traversal. -/
theorem reach_shallow {sk : Skeleton} (hnd : (sk.bones.map Bone.id).Nodup)
    {b : Bone} (hr : ReachableBone sk b) :
    Shallow sk.bones (sk.bones.length + 1) b.id := by
  apply shallow_of_ncard sk.bones.length b.id ⟨b, reach_mem hr, rfl⟩
  · intro d hd
    exact reach_acyclic_below hnd hr hd
  · calc ({x : Bone | x ∈ sk.bones ∧
        Relation.ReflTransGen (DescStep sk.bones) b.id x.id}).ncard
        ≤ ({x : Bone | x ∈ sk.bones}).ncard :=
          Set.ncard_le_ncard (fun x hx => hx.1) sk.bones.finite_toSet
      _ ≤ sk.bones.length := ncard_list_set_le sk.bones

/-- Helper: membership in the child-id list is exactly a descent step. -/
theorem childIdsOf_desc {S : List Bone} {bid cid : Int} :
    cid ∈ childIdsOf S bid ↔ DescStep S bid cid := by
  constructor
  · intro h
    obtain ⟨x, hxf, hxid⟩ := List.mem_map.mp h
    have hx := List.mem_filter.mp hxf
    exact ⟨x, hx.1, hxid, beq_iff_eq.mp hx.2⟩
  · rintro ⟨x, hx, hxid, hxpar⟩
    exact List.mem_map.mpr ⟨x, List.mem_filter.mpr ⟨hx, beq_iff_eq.mpr hxpar⟩, hxid⟩

/-- Helper: with unique store ids the child-id list has no duplicates. -/
theorem childIdsOf_nodup {S : List Bone} (hnd : (S.map Bone.id).Nodup) (bid : Int) :
    (childIdsOf S bid).Nodup :=
  List.Nodup.sublist (List.Sublist.map Bone.id (List.filter_sublist S)) hnd

/-- Helper: full specification of the FK traversal from one bone downward.
Bones outside the visited subtree keep their lookup results, the visited
bone receives the passed world transform, and every parent/child pair in
the subtree satisfies the tip-attachment and angle-accumulation relations
of `_process`. -/
theorem fkProcess_spec {S : List Bone} (hnd : (S.map Bone.id).Nodup) :
    ∀ (fuel : Nat) (bs : List Bone) (bid : Int) (px py pang : ℝ),
    bs.map Bone.static = S.map Bone.static →
    Shallow S fuel bid →
    ((∀ j : Int, ¬ Relation.ReflTransGen (DescStep S) bid j →
      (fkProcess fuel bs bid px py pang).find? (fun b => b.id == j) =
        bs.find? (fun b => b.id == j)) ∧
    (∀ b₀ : Bone, S.find? (fun b => b.id == bid) = some b₀ →
      ∃ b', (fkProcess fuel bs bid px py pang).find? (fun b => b.id == bid) = some b' ∧
        b'.static = b₀.static ∧ b'.world_x = px ∧ b'.world_y = py ∧
        b'.world_angle = pang + b₀.rest_angle + b₀.current_angle) ∧
    ((S.find? (fun b => b.id == bid)).isSome = true →
      ∀ p c : Bone, p ∈ S → c ∈ S →
        Relation.ReflTransGen (DescStep S) bid p.id → c.parent_id = some p.id →
        ∃ c' p',
          (fkProcess fuel bs bid px py pang).find? (fun b => b.id == c.id) = some c' ∧
          (fkProcess fuel bs bid px py pang).find? (fun b => b.id == p.id) = some p' ∧
          c'.static = c.static ∧ p'.static = p.static ∧
          c'.world_x = p'.tip_x ∧ c'.world_y = p'.tip_y ∧
          c'.world_angle = p'.world_angle + c.rest_angle + c.current_angle)) := by
  intro fuel
  induction fuel with
  | zero =>
    intro bs bid px py pang _ hsh
    exact absurd hsh (fun h => h)
  | succ fuel ih =>
    intro bs bid px py pang hstat hsh
    simp only [fkProcess]
    cases hfbs : bs.find? (fun b => b.id == bid) with
    | none =>
      have hcongr := find?_static_congr bs S hstat bid
      rw [hfbs] at hcongr
      have hnone : S.find? (fun b => b.id == bid) = none := by
        cases hSf : S.find? (fun b => b.id == bid) with
        | none => rfl
        | some s => rw [hSf] at hcongr; exact Option.noConfusion hcongr
      refine ⟨fun j _ => rfl, ?_, ?_⟩
      · intro b₀ hb₀
        rw [hnone] at hb₀
        exact Option.noConfusion hb₀
      · intro hsome
        rw [hnone] at hsome
        exact Bool.noConfusion hsome
    | some bone =>
      have hcongr := find?_static_congr bs S hstat bid
      rw [hfbs] at hcongr
      obtain ⟨b₀S, hSfind, hb₀static⟩ : ∃ b₀S, S.find? (fun b => b.id == bid) = some b₀S ∧
          bone.static = b₀S.static := by
        cases hSf : S.find? (fun b => b.id == bid) with
        | none => rw [hSf] at hcongr; exact Option.noConfusion hcongr
        | some s =>
          rw [hSf] at hcongr
          exact ⟨s, rfl, Option.some.inj hcongr⟩
      have hstat1 : (updateBone bs bid (fkUpdate px py
          (pang + bone.rest_angle + bone.current_angle))).map Bone.static =
          S.map Bone.static :=
        (updateBone_map_static bid
          (fkUpdate px py (pang + bone.rest_angle + bone.current_angle))
          (fkUpdate_static px py (pang + bone.rest_angle + bone.current_angle))
          bs).trans hstat
      have hcids : childIdsOf (updateBone bs bid (fkUpdate px py
          (pang + bone.rest_angle + bone.current_angle))) bid = childIdsOf S bid :=
        childIdsOf_congr _ S hstat1 bid
      have hb1find : (updateBone bs bid (fkUpdate px py
          (pang + bone.rest_angle + bone.current_angle))).find?
          (fun (b : Bone) => b.id == bid) = some (fkUpdate px py
          (pang + bone.rest_angle + bone.current_angle) bone) := by
        rw [updateBone_find? bid
          (fkUpdate px py (pang + bone.rest_angle + bone.current_angle))
          (fun b => rfl) bs bid, if_pos rfl, hfbs]
        rfl
      have hfold : ∀ (F : List Bone → Int → List Bone),
          (∀ (a : List Bone) (i : Int), F a i =
            match a.find? (fun (b : Bone) => b.id == bid) with
            | none => a
            | some bcur => fkProcess fuel a i bcur.tip_x bcur.tip_y bcur.world_angle) →
          ∀ (cids : List Int), (∀ cid ∈ cids, DescStep S bid cid) → cids.Nodup →
          ∀ (acc : List Bone) (b₁ : Bone),
          acc.map Bone.static = S.map Bone.static →
          acc.find? (fun (b : Bone) => b.id == bid) = some b₁ →
          ((cids.foldl F acc).map Bone.static = S.map Bone.static ∧
          (∀ j : Int, (∀ cid ∈ cids, ¬ Relation.ReflTransGen (DescStep S) cid j) →
            (cids.foldl F acc).find? (fun (b : Bone) => b.id == j) =
              acc.find? (fun (b : Bone) => b.id == j)) ∧
          (cids.foldl F acc).find? (fun (b : Bone) => b.id == bid) = some b₁ ∧
          (∀ cid ∈ cids, ∀ b₀c : Bone, S.find? (fun b => b.id == cid) = some b₀c →
            ∃ c', (cids.foldl F acc).find? (fun (b : Bone) => b.id == cid) = some c' ∧
              c'.static = b₀c.static ∧ c'.world_x = b₁.tip_x ∧ c'.world_y = b₁.tip_y ∧
              c'.world_angle = b₁.world_angle + b₀c.rest_angle + b₀c.current_angle) ∧
          (∀ cid ∈ cids, ∀ p c : Bone, p ∈ S → c ∈ S →
            Relation.ReflTransGen (DescStep S) cid p.id → c.parent_id = some p.id →
            ∃ c' p', (cids.foldl F acc).find? (fun (b : Bone) => b.id == c.id) = some c' ∧
              (cids.foldl F acc).find? (fun (b : Bone) => b.id == p.id) = some p' ∧
              c'.static = c.static ∧ p'.static = p.static ∧
              c'.world_x = p'.tip_x ∧ c'.world_y = p'.tip_y ∧
              c'.world_angle = p'.world_angle + c.rest_angle + c.current_angle)) := by
        intro F hF cids
        induction cids with
        | nil =>
          intro _ _ acc b₁ hacc hb₁
          exact ⟨hacc, fun j _ => rfl, hb₁,
            fun cid hmem => absurd hmem (List.not_mem_nil cid),
            fun cid hmem => absurd hmem (List.not_mem_nil cid)⟩
        | cons cid rest ihc =>
          intro hdesc hndc acc b₁ hacc hb₁
          have hdcid : DescStep S bid cid := hdesc cid (List.mem_cons_self cid rest)
          have hshc : Shallow S fuel cid := shallow_step hsh hdcid
          have hkey : F acc cid =
              fkProcess fuel acc cid b₁.tip_x b₁.tip_y b₁.world_angle := by
            rw [hF acc cid, hb₁]
          have hfold_eq : (cid :: rest).foldl F acc =
              rest.foldl F (fkProcess fuel acc cid b₁.tip_x b₁.tip_y b₁.world_angle) := by
            rw [List.foldl_cons, hkey]
          obtain ⟨Ac, Bc, Cc⟩ := ih acc cid b₁.tip_x b₁.tip_y b₁.world_angle hacc hshc
          have hacc1 : (fkProcess fuel acc cid b₁.tip_x b₁.tip_y
              b₁.world_angle).map Bone.static = S.map Bone.static :=
            (fkProcess_map_static fuel acc cid _ _ _).trans hacc
          have hnr : ¬ Relation.ReflTransGen (DescStep S) cid bid :=
            child_no_ancestor hsh hdcid
          have hb₁1 : (fkProcess fuel acc cid b₁.tip_x b₁.tip_y
              b₁.world_angle).find? (fun (b : Bone) => b.id == bid) = some b₁ :=
            (Ac bid hnr).trans hb₁
          have hdesc2 : ∀ c2 ∈ rest, DescStep S bid c2 :=
            fun c2 h2 => hdesc c2 (List.mem_cons_of_mem cid h2)
          have hndr := List.nodup_cons.mp hndc
          obtain ⟨g1, g2, g3, g4, g5⟩ := ihc hdesc2 hndr.2 _ b₁ hacc1 hb₁1
          have hnotreach : ∀ j : Int, Relation.ReflTransGen (DescStep S) cid j →
              ∀ c2 ∈ rest, ¬ Relation.ReflTransGen (DescStep S) c2 j :=
            fun j hj c2 h2 hc2j => children_disjoint hnd hsh (hdesc2 c2 h2) hdcid
              (fun he => hndr.1 (he ▸ h2)) hc2j hj
          rw [hfold_eq]
          refine ⟨g1, ?_, g3, ?_, ?_⟩
          · intro j hj
            exact (g2 j (fun c2 h2 => hj c2 (List.mem_cons_of_mem cid h2))).trans
              (Ac j (hj cid (List.mem_cons_self cid rest)))
          · intro cid2 hmem b₀c hSf
            rcases List.mem_cons.mp hmem with rfl | hmem2
            · obtain ⟨c', hcf, hcs, hcx, hcy, hca⟩ := Bc b₀c hSf
              exact ⟨c', (g2 cid2 (hnotreach cid2 Relation.ReflTransGen.refl)).trans hcf,
                hcs, hcx, hcy, hca⟩
            · exact g4 cid2 hmem2 b₀c hSf
          · intro cid2 hmem p c hp hc hrp hcp
            rcases List.mem_cons.mp hmem with rfl | hmem2
            · have hSsome : (S.find? (fun b => b.id == cid2)).isSome = true := by
                obtain ⟨x, hx, hxid, _⟩ := hdcid
                have hfx := find?_nodup_mem hnd hx
                rw [hxid] at hfx
                rw [hfx]
                rfl
              obtain ⟨c', p', hcf, hpf, hcs, hps, hcx, hcy, hca⟩ :=
                Cc hSsome p c hp hc hrp hcp
              have hrc : Relation.ReflTransGen (DescStep S) cid2 c.id :=
                hrp.tail ⟨c, hc, rfl, hcp⟩
              exact ⟨c', p', (g2 c.id (hnotreach c.id hrc)).trans hcf,
                (g2 p.id (hnotreach p.id hrp)).trans hpf, hcs, hps, hcx, hcy, hca⟩
            · exact g5 cid2 hmem2 p c hp hc hrp hcp
      obtain ⟨f1, f2, f3, f4, f5⟩ := hfold _ (fun a i => rfl)
        (childIdsOf (updateBone bs bid (fkUpdate px py
          (pang + bone.rest_angle + bone.current_angle))) bid)
        (fun cid h => childIdsOf_desc.mp (hcids ▸ h))
        (hcids.symm ▸ childIdsOf_nodup hnd bid)
        (updateBone bs bid (fkUpdate px py
          (pang + bone.rest_angle + bone.current_angle)))
        (fkUpdate px py (pang + bone.rest_angle + bone.current_angle) bone)
        hstat1 hb1find
      refine ⟨?_, ?_, ?_⟩
      · intro j hj
        have hjne : j ≠ bid := fun he => hj (by rw [he])
        have hnor : ∀ cid ∈ childIdsOf (updateBone bs bid (fkUpdate px py
            (pang + bone.rest_angle + bone.current_angle))) bid,
            ¬ Relation.ReflTransGen (DescStep S) cid j := fun cid hm hr =>
          hj (Relation.ReflTransGen.head (childIdsOf_desc.mp (hcids ▸ hm)) hr)
        exact (f2 j hnor).trans (by
          rw [updateBone_find? bid
            (fkUpdate px py (pang + bone.rest_angle + bone.current_angle))
            (fun b => rfl) bs j, if_neg hjne])
      · intro b₀ hS
        have hb₀eq : b₀S = b₀ := Option.some.inj (hSfind.symm.trans hS)
        subst hb₀eq
        refine ⟨fkUpdate px py (pang + bone.rest_angle + bone.current_angle) bone,
          f3, hb₀static, rfl, rfl, ?_⟩
        show pang + bone.rest_angle + bone.current_angle =
          pang + b₀S.rest_angle + b₀S.current_angle
        rw [static_rest hb₀static, static_current hb₀static]
      · intro _ p c hp hc hrp hcp
        rcases Relation.ReflTransGen.cases_head hrp with heq | ⟨x, hstepx, hxr⟩
        · have hpred := List.find?_some hSfind
          have hb₀Sid : b₀S.id = bid := beq_iff_eq.mp hpred
          have hpid : p.id = b₀S.id := heq.symm.trans hb₀Sid.symm
          have hpS : p = b₀S :=
            mem_id_unique hnd hp (List.mem_of_find?_eq_some hSfind) hpid
          have hcchild : c.id ∈ childIdsOf (updateBone bs bid (fkUpdate px py
              (pang + bone.rest_angle + bone.current_angle))) bid := by
            rw [hcids]
            exact childIdsOf_desc.mpr ⟨c, hc, rfl, by rw [hcp, ← heq]⟩
          have hcfindS : S.find? (fun b => b.id == c.id) = some c :=
            find?_nodup_mem hnd hc
          obtain ⟨c', hcf, hcs, hcx, hcy, hca⟩ := f4 c.id hcchild c hcfindS
          refine ⟨c', fkUpdate px py (pang + bone.rest_angle + bone.current_angle) bone,
            hcf, ?_, hcs, ?_, hcx, hcy, hca⟩
          · rw [← heq]
            exact f3
          · show bone.static = p.static
            rw [hpS]
            exact hb₀static
        · have hxmem : x ∈ childIdsOf (updateBone bs bid (fkUpdate px py
              (pang + bone.rest_angle + bone.current_angle))) bid := by
            rw [hcids]
            exact childIdsOf_desc.mpr hstepx
          exact f5 x hxmem p c hp hc hxr hcp

/-- Helper: a root bone's id is never the target of a descent step. -/
theorem root_not_target {S : List Bone} (hnd : (S.map Bone.id).Nodup) {r : Bone}
    (hr : r ∈ S) (hpar : r.parent_id = none) (m : Int) : ¬ DescStep S m r.id := by
  rintro ⟨x, hx, hxid, hxpar⟩
  have hxr : x = r := mem_id_unique hnd hx hr hxid
  rw [hxr, hpar] at hxpar
  exact Option.noConfusion hxpar

/-- Helper: distinct root bones have disjoint descendant id sets. -/
theorem roots_disjoint {S : List Bone} (hnd : (S.map Bone.id).Nodup) {r1 r2 : Bone}
    (h1 : r1 ∈ S) (hp1 : r1.parent_id = none) (h2 : r2 ∈ S)
    (hp2 : r2.parent_id = none) (hne : r1.id ≠ r2.id) {j : Int}
    (ha : Relation.ReflTransGen (DescStep S) r1.id j)
    (hb : Relation.ReflTransGen (DescStep S) r2.id j) : False := by
  rcases desc_meet hnd ha hb with hm | hm
  · rcases Relation.reflTransGen_iff_eq_or_transGen.mp hm with heq | ht
    · exact hne heq.symm
    · obtain ⟨m, _, hstep⟩ := Relation.TransGen.tail'_iff.mp ht
      exact root_not_target hnd h2 hp2 m hstep
  · rcases Relation.reflTransGen_iff_eq_or_transGen.mp hm with heq | ht
    · exact hne heq
    · obtain ⟨m, _, hstep⟩ := Relation.TransGen.tail'_iff.mp ht
      exact root_not_target hnd h1 hp1 m hstep

/-- Helper: every reachable bone descends from some root bone. -/
theorem reach_has_root {sk : Skeleton} {b : Bone} (h : ReachableBone sk b) :
    ∃ r, r ∈ sk.bones ∧ r.parent_id = none ∧
      Relation.ReflTransGen (DescStep sk.bones) r.id b.id := by
  induction h with
  | root b hb hpar => exact ⟨b, hb, hpar, Relation.ReflTransGen.refl⟩
  | child p b hp hb hpar ihp =>
    obtain ⟨r, hr, hrpar, hrtg⟩ := ihp
    exact ⟨r, hr, hrpar, hrtg.tail ⟨b, hb, rfl, hpar⟩⟩

/-- Helper: a root bone's id appears in the root-id list of the FK fold. -/
theorem root_id_mem {sk : Skeleton} {r : Bone} (hr : r ∈ sk.bones)
    (hpar : r.parent_id = none) : r.id ∈ sk.root_bones.map Bone.id :=
  List.mem_map_of_mem Bone.id (List.mem_filter.mpr ⟨hr, by rw [hpar]; rfl⟩)

/-- Helper: every id in the root-id list carries a parentless bone. -/
theorem rootIds_spec {sk : Skeleton} : ∀ rid ∈ sk.root_bones.map Bone.id,
    ∃ r ∈ sk.bones, r.id = rid ∧ r.parent_id = none := by
  intro rid h
  obtain ⟨x, hxf, hxid⟩ := List.mem_map.mp h
  have hx := List.mem_filter.mp hxf
  exact ⟨x, hx.1, hxid, Option.isNone_iff_eq_none.mp hx.2⟩

/-- Helper: with unique store ids the root-id list has no duplicates. -/
theorem rootIds_nodup {sk : Skeleton} (hnd : (sk.bones.map Bone.id).Nodup) :
    (sk.root_bones.map Bone.id).Nodup :=
  List.Nodup.sublist (List.Sublist.map Bone.id (List.filter_sublist sk.bones)) hnd

/-- Helper: specification of `calculate_forward_kinematics`: every root bone
receives the skeleton's root anchor and its own rest+current angle, and
every FK-visited parent/child pair satisfies the tip-attachment and
angle-accumulation relations. -/
theorem fk_main (sk : Skeleton) (hnd : (sk.bones.map Bone.id).Nodup) :
    (∀ r ∈ sk.bones, r.parent_id = none →
      ∃ r', (calculate_forward_kinematics sk).bones.find? (fun b => b.id == r.id) =
          some r' ∧
        r'.static = r.static ∧ r'.world_x = sk.root_x ∧ r'.world_y = sk.root_y ∧
        r'.world_angle = 0 + r.rest_angle + r.current_angle) ∧
    (∀ p c : Bone, ReachableBone sk p → c ∈ sk.bones → c.parent_id = some p.id →
      ∃ c' p', (calculate_forward_kinematics sk).bones.find? (fun b => b.id == c.id) =
          some c' ∧
        (calculate_forward_kinematics sk).bones.find? (fun b => b.id == p.id) =
          some p' ∧
        c'.static = c.static ∧ p'.static = p.static ∧
        c'.world_x = p'.tip_x ∧ c'.world_y = p'.tip_y ∧
        c'.world_angle = p'.world_angle + c.rest_angle + c.current_angle) := by
  have hfold : ∀ (F : List Bone → Int → List Bone),
      (∀ (a : List Bone) (i : Int), F a i =
        fkProcess (sk.bones.length + 1) a i sk.root_x sk.root_y 0) →
      ∀ (rids : List Int),
      (∀ rid ∈ rids, ∃ r ∈ sk.bones, r.id = rid ∧ r.parent_id = none) →
      rids.Nodup →
      ∀ (acc : List Bone), acc.map Bone.static = sk.bones.map Bone.static →
      ((rids.foldl F acc).map Bone.static = sk.bones.map Bone.static ∧
      (∀ j : Int,
        (∀ rid ∈ rids, ¬ Relation.ReflTransGen (DescStep sk.bones) rid j) →
        (rids.foldl F acc).find? (fun (b : Bone) => b.id == j) =
          acc.find? (fun (b : Bone) => b.id == j)) ∧
      (∀ rid ∈ rids, ∀ b₀ : Bone, sk.bones.find? (fun b => b.id == rid) = some b₀ →
        ∃ b', (rids.foldl F acc).find? (fun (b : Bone) => b.id == rid) = some b' ∧
          b'.static = b₀.static ∧ b'.world_x = sk.root_x ∧ b'.world_y = sk.root_y ∧
          b'.world_angle = 0 + b₀.rest_angle + b₀.current_angle) ∧
      (∀ rid ∈ rids, ∀ p c : Bone, p ∈ sk.bones → c ∈ sk.bones →
        Relation.ReflTransGen (DescStep sk.bones) rid p.id → c.parent_id = some p.id →
        ∃ c' p', (rids.foldl F acc).find? (fun (b : Bone) => b.id == c.id) = some c' ∧
          (rids.foldl F acc).find? (fun (b : Bone) => b.id == p.id) = some p' ∧
          c'.static = c.static ∧ p'.static = p.static ∧
          c'.world_x = p'.tip_x ∧ c'.world_y = p'.tip_y ∧
          c'.world_angle = p'.world_angle + c.rest_angle + c.current_angle)) := by
    intro F hF rids
    induction rids with
    | nil =>
      intro _ _ acc hacc
      exact ⟨hacc, fun j _ => rfl,
        fun rid hmem => absurd hmem (List.not_mem_nil rid),
        fun rid hmem => absurd hmem (List.not_mem_nil rid)⟩
    | cons rid rest ihr =>
      intro hroots hndc acc hacc
      obtain ⟨r, hrm, hrid, hrpar⟩ := hroots rid (List.mem_cons_self rid rest)
      have hreach : ReachableBone sk r := ReachableBone.root r hrm hrpar
      have hsh : Shallow sk.bones (sk.bones.length + 1) rid :=
        hrid ▸ reach_shallow hnd hreach
      obtain ⟨Ar, Br, Cr⟩ := fkProcess_spec hnd (sk.bones.length + 1) acc rid
        sk.root_x sk.root_y 0 hacc hsh
      have hfold_eq : (rid :: rest).foldl F acc =
          rest.foldl F (fkProcess (sk.bones.length + 1) acc rid
            sk.root_x sk.root_y 0) := by
        rw [List.foldl_cons, hF acc rid]
      have hacc1 : (fkProcess (sk.bones.length + 1) acc rid sk.root_x sk.root_y
          0).map Bone.static = sk.bones.map Bone.static :=
        (fkProcess_map_static _ acc rid _ _ _).trans hacc
      have hroots2 : ∀ rid2 ∈ rest, ∃ r ∈ sk.bones, r.id = rid2 ∧ r.parent_id = none :=
        fun rid2 h2 => hroots rid2 (List.mem_cons_of_mem rid h2)
      have hndr := List.nodup_cons.mp hndc
      obtain ⟨g1, g2, g3, g4⟩ := ihr hroots2 hndr.2 _ hacc1
      have hnotreach : ∀ j : Int, Relation.ReflTransGen (DescStep sk.bones) rid j →
          ∀ rid2 ∈ rest, ¬ Relation.ReflTransGen (DescStep sk.bones) rid2 j := by
        intro j hj rid2 h2 h2j
        obtain ⟨r2, hr2m, hr2id, hr2par⟩ := hroots2 rid2 h2
        have hne : r2.id ≠ r.id := fun he =>
          hndr.1 (by
            have hrr : rid = rid2 := by rw [← hrid, ← he, hr2id]
            rw [hrr]; exact h2)
        exact roots_disjoint hnd hr2m hr2par hrm hrpar hne
          (hr2id ▸ h2j) (hrid ▸ hj)
      rw [hfold_eq]
      refine ⟨g1, ?_, ?_, ?_⟩
      · intro j hj
        exact (g2 j (fun r2 h2 => hj r2 (List.mem_cons_of_mem rid h2))).trans
          (Ar j (hj rid (List.mem_cons_self rid rest)))
      · intro rid2 hmem b₀ hSf
        rcases List.mem_cons.mp hmem with rfl | hmem2
        · obtain ⟨b', hbf, hbs, hbx, hby, hba⟩ := Br b₀ hSf
          exact ⟨b', (g2 rid2 (hnotreach rid2 Relation.ReflTransGen.refl)).trans hbf,
            hbs, hbx, hby, hba⟩
        · exact g3 rid2 hmem2 b₀ hSf
      · intro rid2 hmem p c hp hc hrp hcp
        rcases List.mem_cons.mp hmem with rfl | hmem2
        · have hSsome : (sk.bones.find? (fun b => b.id == rid2)).isSome = true := by
            have hfr := find?_nodup_mem hnd hrm
            rw [hrid] at hfr
            rw [hfr]
            rfl
          obtain ⟨c', p', hcf, hpf, hcs, hps, hcx, hcy, hca⟩ :=
            Cr hSsome p c hp hc hrp hcp
          have hrc : Relation.ReflTransGen (DescStep sk.bones) rid2 c.id :=
            hrp.tail ⟨c, hc, rfl, hcp⟩
          exact ⟨c', p', (g2 c.id (hnotreach c.id hrc)).trans hcf,
            (g2 p.id (hnotreach p.id hrp)).trans hpf, hcs, hps, hcx, hcy, hca⟩
        · exact g4 rid2 hmem2 p c hp hc hrp hcp
  obtain ⟨f1, f2, f3, f4⟩ := hfold _ (fun a i => rfl)
    (sk.root_bones.map Bone.id) rootIds_spec (rootIds_nodup hnd) sk.bones rfl
  refine ⟨?_, ?_⟩
  · intro r hr hpar
    exact f3 r.id (root_id_mem hr hpar) r (find?_nodup_mem hnd hr)
  · intro p c hreach hc hcp
    obtain ⟨r, hrm, hrpar, hrtg⟩ := reach_has_root hreach
    exact f4 r.id (root_id_mem hrm hrpar) p c (reach_mem hreach) hc hrtg hcp

/-- C8: after `calculate_forward_kinematics` (for a skeleton whose bone
store has unique ids, as the id-keyed Python dict guarantees), every root
bone's world position equals the skeleton's root anchor and its world angle
equals `rest_angle + current_angle`; every reachable child's world position
equals its parent's tip with world angle
`parent.world_angle + child.rest_angle + child.current_angle`; in
particular, for a 2-bone chain with lengths `L1`, `L2` and all rest/current
angles zero, the tip of bone 2 equals root + (L1 + L2, 0). -/
theorem fk_world_transforms (sk : Skeleton)
    (hnd : (sk.bones.map Bone.id).Nodup) :
    (∀ r ∈ sk.bones, r.parent_id = none →
      ∃ r', (calculate_forward_kinematics sk).bones.find? (fun b => b.id == r.id) =
          some r' ∧
        r'.static = r.static ∧ r'.world_x = sk.root_x ∧ r'.world_y = sk.root_y ∧
        r'.world_angle = r.rest_angle + r.current_angle) ∧
    (∀ p c : Bone, ReachableBone sk p → c ∈ sk.bones → c.parent_id = some p.id →
      ∃ c' p', (calculate_forward_kinematics sk).bones.find? (fun b => b.id == c.id) =
          some c' ∧
        (calculate_forward_kinematics sk).bones.find? (fun b => b.id == p.id) =
          some p' ∧
        c'.static = c.static ∧ p'.static = p.static ∧
        c'.world_x = p'.tip_x ∧ c'.world_y = p'.tip_y ∧
        c'.world_angle = p'.world_angle + c.rest_angle + c.current_angle) ∧
    (∀ (L1 L2 rx ry : ℝ),
      ∃ b2', (calculate_forward_kinematics
          ⟨[Bone.mk 0 "b1" none L1 0 0 0 0 0 1,
            Bone.mk 1 "b2" (some 0) L2 0 0 0 0 0 1], rx, ry⟩).bones.find?
          (fun b => b.id == 1) = some b2' ∧
        b2'.tip_x = rx + (L1 + L2) ∧ b2'.tip_y = ry) := by
  refine ⟨?_, (fk_main sk hnd).2, ?_⟩
  · intro r hr hpar
    obtain ⟨r', h1, h2, h3, h4, h5⟩ := (fk_main sk hnd).1 r hr hpar
    exact ⟨r', h1, h2, h3, h4, by rw [h5]; ring⟩
  · intro L1 L2 rx ry
    have hnd2 : (((⟨[Bone.mk 0 "b1" none L1 0 0 0 0 0 1,
        Bone.mk 1 "b2" (some 0) L2 0 0 0 0 0 1], rx, ry⟩ : Skeleton)).bones.map
        Bone.id).Nodup := by
      simp
    obtain ⟨P1, P2⟩ := fk_main ⟨[Bone.mk 0 "b1" none L1 0 0 0 0 0 1,
        Bone.mk 1 "b2" (some 0) L2 0 0 0 0 0 1], rx, ry⟩ hnd2
    have hb1mem : Bone.mk 0 "b1" none L1 0 0 0 0 0 1 ∈
        ((⟨[Bone.mk 0 "b1" none L1 0 0 0 0 0 1,
          Bone.mk 1 "b2" (some 0) L2 0 0 0 0 0 1], rx, ry⟩ : Skeleton)).bones :=
      List.mem_cons_self _ _
    have hb2mem : Bone.mk 1 "b2" (some 0) L2 0 0 0 0 0 1 ∈
        ((⟨[Bone.mk 0 "b1" none L1 0 0 0 0 0 1,
          Bone.mk 1 "b2" (some 0) L2 0 0 0 0 0 1], rx, ry⟩ : Skeleton)).bones :=
      List.mem_cons_of_mem _ (List.mem_cons_self _ _)
    obtain ⟨r', hrf, hrs, hrx2, hry2, hra⟩ :=
      P1 (Bone.mk 0 "b1" none L1 0 0 0 0 0 1) hb1mem rfl
    obtain ⟨c', p', hcf, hpf, hcs, hps, hcx, hcy, hca⟩ :=
      P2 (Bone.mk 0 "b1" none L1 0 0 0 0 0 1) (Bone.mk 1 "b2" (some 0) L2 0 0 0 0 0 1)
        (ReachableBone.root _ hb1mem rfl) hb2mem rfl
    have heqr : r' = p' := Option.some.inj (hrf.symm.trans hpf)
    subst heqr
    have hplen : r'.length = L1 := static_length hps
    have hclen : c'.length = L2 := static_length hcs
    have hpa0 : r'.world_angle = 0 := by rw [hra]; simp
    have hca0 : c'.world_angle = 0 := by rw [hca, hpa0]; simp
    have htipx : r'.tip_x = rx + L1 := by
      simp only [Bone.tip_x]
      rw [hrx2, hplen, hpa0]
      simp
    have htipy : r'.tip_y = ry := by
      simp only [Bone.tip_y]
      rw [hry2, hplen, hpa0]
      simp
    refine ⟨c', hcf, ?_, ?_⟩
    · simp only [Bone.tip_x]
      rw [hcx, htipx, hclen, hca0]
      simp
      ring
    · simp only [Bone.tip_y]
      rw [hcy, htipy, hclen, hca0]
      simp

/-- C8 witness: a concrete 2-bone chain (lengths 2 and 3, zero angles,
root anchor (5, 7)); bone 2's tip lands at (5 + (2 + 3), 7) = (10, 7). -/
theorem fk_world_transforms_witness :
    ∃ b2', (calculate_forward_kinematics
        ⟨[Bone.mk 0 "b1" none 2 0 0 0 0 0 1,
          Bone.mk 1 "b2" (some 0) 3 0 0 0 0 0 1], 5, 7⟩).bones.find?
        (fun b => b.id == 1) = some b2' ∧
      b2'.tip_x = 5 + (2 + 3) ∧ b2'.tip_y = 7 :=
  (fk_world_transforms
    ⟨[Bone.mk 0 "b1" none 2 0 0 0 0 0 1,
      Bone.mk 1 "b2" (some 0) 3 0 0 0 0 0 1], 5, 7⟩ (by simp)).2.2 2 3 5 7
